import Mathlib

/-!
Verification of the inference engine of vigra's new random forest
(include/vigra/random_forest_new/random_forest.hxx): leaf traversal,
the `leaf_ids` driver, `predict_proba`, `predict` and `merge`.

The header's external collaborators (the `BinaryForest` graph, the
`PropertyMap` attribute maps, `ProblemSpecNew`, the accumulator and the
thread pool) are not part of the sources; they are modelled from the
specification's collaborator contracts and marked as such.  Machine
doubles only ever hold exact small integer counts here, so comparison
counters are modelled as naturals and the single final division
`sum / n_samples` is modelled as the formal quotient of that pair
(`avgOf`).
-/

set_option maxHeartbeats 1000000

namespace VigraRF

instance {ε α : Type} [DecidableEq ε] [DecidableEq α] : DecidableEq (Except ε α) := fun x y =>
  match x, y with
  | .ok a, .ok b => if h : a = b then .isTrue (by rw [h]) else .isFalse (by simp [h])
  | .ok _, .error _ => .isFalse (by simp)
  | .error _, .ok _ => .isFalse (by simp)
  | .error e1, .error e2 => if h : e1 = e2 then .isTrue (by rw [h]) else .isFalse (by simp [h])

/-- A two dimensional array with explicit shape fields; entries are a total
function, so an out-of-range read yields a junk value instead of being
undefined.  Models vigra::MultiArray exactly as far as the inference code
uses it (shape queries, row binding, element reads and writes, fill). -/
structure Mat (α : Type) where
  shape0 : ℕ
  shape1 : ℕ
  entry : ℕ → ℕ → α

def Mat.setEntry {α : Type} (m : Mat α) (i k : ℕ) (v : α) : Mat α :=
  { m with entry := fun a b => if a = i ∧ b = k then v else m.entry a b }

def Mat.fill {α : Type} (m : Mat α) (v : α) : Mat α :=
  { m with entry := fun _ _ => v }

def Mat.row {α : Type} (m : Mat α) (i : ℕ) : List α :=
  (List.range m.shape1).map (fun b => m.entry i b)

def Mat.setRow {α : Type} [Inhabited α] (m : Mat α) (i : ℕ) (vals : List α) : Mat α :=
  { m with entry := fun a b => if a = i ∧ b < vals.length then vals.getD b default else m.entry a b }

/-- Modelled from the spec: the node attribute map of the collaborator
contracts (property_map.hxx is not among the sources).  An association
list keyed by node id: insert overwrites an existing key (last insert
wins), get fails (`none`) on a missing key, and enumeration iterates the
entries in list order. -/
structure PropertyMap (α : Type) where
  entries : List (ℕ × α)

def pmLookup {α : Type} : List (ℕ × α) → ℕ → Option α
  | [], _ => none
  | (k0, v) :: rest, k => if k = k0 then some v else pmLookup rest k

def PropertyMap.get {α : Type} (m : PropertyMap α) (k : ℕ) : Option α :=
  pmLookup m.entries k

def pmInsertList {α : Type} : List (ℕ × α) → ℕ → α → List (ℕ × α)
  | [], k, v => [(k, v)]
  | (k0, v0) :: rest, k, v =>
    if k = k0 then (k0, v) :: rest else (k0, v0) :: pmInsertList rest k v

def PropertyMap.insert {α : Type} (m : PropertyMap α) (k : ℕ) (v : α) : PropertyMap α :=
  ⟨pmInsertList m.entries k v⟩

/-- All keys of the map are below the bound (node ids of a forest are below
its node count). -/
def PropertyMap.keysBound {α : Type} (m : PropertyMap α) (bound : ℕ) : Prop :=
  ∀ p ∈ m.entries, p.1 < bound

/-- The map holds each key at most once. -/
def PropertyMap.keysNodup {α : Type} (m : PropertyMap α) : Prop :=
  (m.entries.map Prod.fst).Nodup

/-- Modelled from the spec: the forest graph of the collaborator contracts
(binary_forest.hxx is not among the sources).  Nodes carry the ids
0 .. numNodes-1; `children` lists the two children of every internal node
(`none` for a leaf) and `roots` lists one root per tree.  `merge` is the
id-preserving structural append used by RandomForest::merge: the second
forest's node ids are renumbered by adding the first forest's node
count. -/
structure BinaryForest where
  children : List (Option (ℕ × ℕ))
  roots : List ℕ

def BinaryForest.numNodes (g : BinaryForest) : ℕ := g.children.length

def BinaryForest.numRoots (g : BinaryForest) : ℕ := g.roots.length

def BinaryForest.getRoot (g : BinaryForest) (k : ℕ) : ℕ := g.roots.getD k 0

def BinaryForest.childrenOf (g : BinaryForest) (n : ℕ) : Option (ℕ × ℕ) :=
  g.children.getD n none

def BinaryForest.outDegree (g : BinaryForest) (n : ℕ) : ℕ :=
  match g.childrenOf n with
  | none => 0
  | some _ => 2

def BinaryForest.getChild (g : BinaryForest) (n : ℕ) (i : ℕ) : ℕ :=
  match g.childrenOf n with
  | none => 0
  | some (l, r) => if i = 0 then l else r

def BinaryForest.merge (a b : BinaryForest) : BinaryForest :=
  { children := a.children ++
      b.children.map (Option.map (fun p => (p.1 + a.numNodes, p.2 + a.numNodes))),
    roots := a.roots ++ b.roots.map (fun r => r + a.numNodes) }

/-- Modelled from the spec: the problem specification
(random_forest_common.hxx is not among the sources) — expected feature
count, class count and the ordered distinct labels; two specifications are
equal iff all three fields match. -/
structure ProblemSpecNew where
  num_features_ : ℕ
  num_classes_ : ℕ
  distinct_classes_ : List ℤ
deriving DecidableEq

/-- Modelled from the spec: a split test is a callable mapping a feature
row to a child index in 0/1.  `F` is the feature value type (the C++ class
is a template over its FEATURES argument). -/
abbrev SplitTest (F : Type) : Type := List F → ℕ

/-- The random forest of random_forest.hxx: graph, split tests per internal
node, responses per node, problem specification.  `A` is the accumulator
input type (the node response type). -/
structure RandomForest (F A : Type) where
  graph_ : BinaryForest
  split_tests_ : PropertyMap (SplitTest F)
  node_responses_ : PropertyMap A
  problem_spec_ : ProblemSpecNew

def RandomForest.num_nodes {F A : Type} (rf : RandomForest F A) : ℕ := rf.graph_.numNodes

def RandomForest.num_trees {F A : Type} (rf : RandomForest F A) : ℕ := rf.graph_.numRoots

def RandomForest.num_classes {F A : Type} (rf : RandomForest F A) : ℕ :=
  rf.problem_spec_.num_classes_

/-- Failure message of the attribute map's checked lookup (PropertyMap::at
throws on a missing key; modelled from the spec's lookup-error class). -/
def lookupFailMsg : String := "PropertyMap::at(): key not found."

/-- RandomForest::merge.  The Except component reports the precondition
failure; the first component is the (possibly unchanged) forest, modelling
the mutation visible through the this-object. -/
def RandomForest.merge {F A : Type} (rf other : RandomForest F A) :
    RandomForest F A × Except String Unit :=
  if rf.problem_spec_ = other.problem_spec_ then
    let offset := rf.num_nodes
    ({ graph_ := rf.graph_.merge other.graph_,
       split_tests_ := other.split_tests_.entries.foldl
         (fun m p => m.insert (p.1 + offset) p.2) rf.split_tests_,
       node_responses_ := other.node_responses_.entries.foldl
         (fun m p => m.insert (p.1 + offset) p.2) rf.node_responses_,
       problem_spec_ := rf.problem_spec_ }, .ok ())
  else (rf, .error "RandomForest::merge(): You cannot merge with different problem specs.")

/-- The root-to-leaf loop of leaf_ids_impl: while the current node has
children, evaluate its split test on the feature row and move to the
selected child, counting one comparison per step.  The fuel argument only
serves termination; `numNodes + 1` always suffices on well-formed forests
(walkFromNode_some). -/
def RandomForest.walkFromNode {F A : Type} (rf : RandomForest F A) (row : List F) :
    ℕ → ℕ → Option (ℕ × ℕ)
  | 0, _ => none
  | fuel + 1, node =>
    match rf.graph_.childrenOf node with
    | none => some (node, 0)
    | some _ =>
      match rf.split_tests_.get node with
      | none => none
      | some f =>
        (rf.walkFromNode row fuel (rf.graph_.getChild node (f row))).map
          (fun p => (p.1, p.2 + 1))

/-- Traversal of one tree for one feature row: leaf id reached and number
of split comparisons. -/
def RandomForest.walkResult {F A : Type} (rf : RandomForest F A) (row : List F) (k : ℕ) :
    Option (ℕ × ℕ) :=
  rf.walkFromNode row (rf.graph_.numNodes + 1) (rf.graph_.getRoot k)

def RandomForest.leafOf {F A : Type} (rf : RandomForest F A) (row : List F) (k : ℕ) : ℕ :=
  ((rf.walkResult row k).getD (0, 0)).1

def RandomForest.countOf {F A : Type} (rf : RandomForest F A) (row : List F) (k : ℕ) : ℕ :=
  ((rf.walkResult row k).getD (0, 0)).2

/-- The inner loop of leaf_ids_impl over the requested trees for one sample:
walk each tree, write the reached leaf id into ids(i, k), sum the
comparisons.  A failed traversal (missing split test) aborts, leaving the
writes made so far in place. -/
def RandomForest.treesLoop {F A : Type} (rf : RandomForest F A) (row : List F) (i : ℕ) :
    List ℕ → Mat ℤ → Mat ℤ × Except String ℕ
  | [], ids => (ids, .ok 0)
  | k :: ks, ids =>
    match rf.walkResult row k with
    | none => (ids, .error lookupFailMsg)
    | some lc =>
      match rf.treesLoop row i ks (ids.setEntry i k (lc.1 : ℤ)) with
      | (ids1, .ok c2) => (ids1, .ok (lc.2 + c2))
      | (ids1, .error e) => (ids1, .error e)

/-- The outer loop of leaf_ids_impl over the samples of [from, to); returns
the per-sample comparison counts. -/
def RandomForest.samplesLoop {F A : Type} (rf : RandomForest F A) (features : Mat F)
    (tis : List ℕ) : List ℕ → Mat ℤ → Mat ℤ × Except String (List ℕ)
  | [], ids => (ids, .ok [])
  | i :: rest, ids =>
    match rf.treesLoop (features.row i) i tis ids with
    | (ids1, .error e) => (ids1, .error e)
    | (ids1, .ok c) =>
      match rf.samplesLoop features tis rest ids1 with
      | (ids2, .ok cs) => (ids2, .ok (c :: cs))
      | (ids2, .error e) => (ids2, .error e)

/-- RandomForest::leaf_ids_impl: preconditions, then the traversal loops
over samples [from, to) and the given tree indices; returns the total
comparison count of that range. -/
def RandomForest.leaf_ids_impl {F A : Type} (rf : RandomForest F A) (features : Mat F)
    (ids : Mat ℤ) (from_ to_ : ℕ) (tree_indices : List ℕ) : Mat ℤ × Except String ℕ :=
  if features.shape0 ≠ ids.shape0 then
    (ids, .error "RandomForest::leaf_ids_impl(): Shape mismatch between features and labels.")
  else if features.shape1 ≠ rf.problem_spec_.num_features_ then
    (ids, .error "RandomForest::leaf_ids_impl(): Number of Features in prediction differs from training.")
  else if ¬ (from_ ≤ to_ ∧ to_ ≤ features.shape0) then
    (ids, .error "RandomForest::leaf_ids_impl(): Indices out of range.")
  else if ids.shape1 ≠ rf.graph_.numRoots then
    (ids, .error "RandomForest::leaf_ids_impl(): Leaf array has wrong shape.")
  else
    match rf.samplesLoop features tree_indices (List.range' from_ (to_ - from_)) ids with
    | (ids1, .ok cs) => (ids1, .ok cs.sum)
    | (ids1, .error e) => (ids1, .error e)

/-- The item loop of parallel_foreach inside leaf_ids: item i runs
leaf_ids_impl(features, ids, i, i+1, tree_indices); the per-item
comparison counts are returned in item order. -/
def RandomForest.runItems {F A : Type} (rf : RandomForest F A) (features : Mat F)
    (tis : List ℕ) : List ℕ → Mat ℤ → Mat ℤ × Except String (List ℕ)
  | [], ids => (ids, .ok [])
  | i :: rest, ids =>
    match rf.leaf_ids_impl features ids i (i + 1) tis with
    | (ids1, .error e) => (ids1, .error e)
    | (ids1, .ok c) =>
      match rf.runItems features tis rest ids1 with
      | (ids2, .ok cs) => (ids2, .ok (c :: cs))
      | (ids2, .error e) => (ids2, .error e)

/-- Insertion into a strictly ascending list, dropping duplicates
(std::set::insert). -/
def sortedInsert (x : ℕ) : List ℕ → List ℕ
  | [] => [x]
  | y :: ys => if x < y then x :: y :: ys else if x = y then y :: ys else y :: sortedInsert x ys

/-- std::set of the requested tree indices: sorted ascending, duplicates
removed. -/
def toSortedSet (l : List ℕ) : List ℕ := l.foldr sortedInsert []

/-- An empty requested set means all trees (ascending, as iterating the
std::set that 0 .. numRoots-1 were inserted into). -/
def resolveIndices (tis : List ℕ) (nr : ℕ) : List ℕ :=
  let actual := toSortedSet tis
  if actual = [] then List.range nr else actual

/-- Worker-count resolution of leaf_ids: -1 means hardware concurrency
(`hw`), anything below 1 is clamped to 1. -/
def resolveThreads (hw : ℕ) (n_threads : ℤ) : ℕ :=
  let n : ℤ := if n_threads = -1 then (hw : ℤ) else n_threads
  if n < 1 then 1 else n.toNat

/-- Modelled from the spec: the per-worker comparison accumulators of the
parallel executor (threadpool.hxx is not among the sources).  `workerOf`
assigns each item to a worker; each of the `t` workers accumulates the
counts of its items and the accumulators are summed after the join. -/
def workerSum (t : ℕ) (workerOf : ℕ → ℕ) (cs : List ℕ) : ℕ :=
  ∑ w ∈ Finset.range t, ∑ i ∈ Finset.range cs.length,
    if workerOf i = w then cs.getD i 0 else 0

/-- The returned average: total split comparisons divided by the sample
count.  The code computes this as a double division with no guard on a
zero divisor; it is modelled as the formal quotient of the returned
(total, samples) pair. -/
def avgOf (p : ℕ × ℕ) : ℚ := (p.1 : ℚ) / (p.2 : ℚ)

/-- RandomForest::leaf_ids.  `hw` stands for the platform's hardware
concurrency and `workerOf` for the executor's item-to-worker assignment
(both external, see workerSum).  Returns the final ids matrix (also on
failure, modelling the by-reference argument) and, on success, the pair
of total split comparisons and sample count whose quotient the code
returns. -/
def RandomForest.leaf_ids {F A : Type} (rf : RandomForest F A) (features : Mat F)
    (ids : Mat ℤ) (n_threads : ℤ) (hw : ℕ) (workerOf : ℕ → ℕ)
    (tree_indices : List ℕ) : Mat ℤ × Except String (ℕ × ℕ) :=
  if features.shape0 ≠ ids.shape0 then
    (ids, .error "RandomForest::leaf_ids(): Shape mismatch between features and probabilities.")
  else if features.shape1 ≠ rf.problem_spec_.num_features_ then
    (ids, .error "RandomForest::leaf_ids(): Number of features in prediction differs from training.")
  else if ids.shape1 ≠ rf.graph_.numRoots then
    (ids, .error "RandomForest::leaf_ids(): Leaf array has wrong shape.")
  else if ¬ (∀ i ∈ toSortedSet tree_indices, i < rf.graph_.numRoots) then
    (ids, .error "RandomForest::leaf_ids(): Tree index out of range.")
  else
    let actual := resolveIndices tree_indices rf.graph_.numRoots
    let num_instances := features.shape0
    let t := resolveThreads hw n_threads
    match rf.runItems features actual (List.range num_instances) (ids.fill (-1)) with
    | (ids1, .error e) => (ids1, .error e)
    | (ids1, .ok cs) => (ids1, .ok (workerSum t workerOf cs, num_instances))

/-- The per-sample response gathering of predict_proba: for every tree of
the resolved set, in ascending order, look the node response of the leaf
id of ids(i, k) up. -/
def RandomForest.gatherResponses {F A : Type} (rf : RandomForest F A) (ids : Mat ℤ)
    (actual : List ℕ) (i : ℕ) : Option (List A) :=
  actual.mapM (fun k => rf.node_responses_.get (ids.entry i k).toNat)

/-- The sample loop of predict_proba: gather the responses of sample i and
write the accumulator's output into row i of the probability matrix.  A
missing response aborts, leaving the rows written so far in place. -/
def RandomForest.gatherLoop {F A : Type} (rf : RandomForest F A) (acc : List A → List ℚ)
    (ids : Mat ℤ) (actual : List ℕ) : List ℕ → Mat ℚ → Mat ℚ × Except String Unit
  | [], probs => (probs, .ok ())
  | i :: rest, probs =>
    match rf.gatherResponses ids actual i with
    | none => (probs, .error lookupFailMsg)
    | some tree_results => rf.gatherLoop acc ids actual rest (probs.setRow i (acc tree_results))

/-- RandomForest::predict_proba.  `acc` is the external accumulator (one
invocation per sample).  Returns the final probability matrix (also on
failure) and, on success, the comparison pair forwarded from
leaf_ids. -/
def RandomForest.predict_proba {F A : Type} (rf : RandomForest F A) (acc : List A → List ℚ)
    (features : Mat F) (probs : Mat ℚ) (n_threads : ℤ) (hw : ℕ) (workerOf : ℕ → ℕ)
    (tree_indices : List ℕ) : Mat ℚ × Except String (ℕ × ℕ) :=
  if features.shape0 ≠ probs.shape0 then
    (probs, .error "RandomForest::predict_proba(): Shape mismatch between features and probabilities.")
  else if features.shape1 ≠ rf.problem_spec_.num_features_ then
    (probs, .error "RandomForest::predict_proba(): Number of features in prediction differs from training.")
  else if probs.shape1 ≠ rf.problem_spec_.num_classes_ then
    (probs, .error "RandomForest::predict_proba(): Number of labels in probabilities differs from training.")
  else if ¬ (∀ i ∈ toSortedSet tree_indices, i < rf.graph_.numRoots) then
    (probs, .error "RandomForest::predict_proba(): Tree index out of range.")
  else
    let actual := resolveIndices tree_indices rf.graph_.numRoots
    let ids0 : Mat ℤ := ⟨features.shape0, rf.graph_.numRoots, fun _ _ => 0⟩
    match rf.leaf_ids features ids0 n_threads hw workerOf actual with
    | (_, .error e) => (probs, .error e)
    | (idsM, .ok p) =>
      match rf.gatherLoop acc idsM actual (List.range features.shape0) probs with
      | (probs1, .ok _) => (probs1, .ok p)
      | (probs1, .error e) => (probs1, .error e)

/-- The scan of std::max_element: keep the current best and its index,
replace them whenever a strictly larger element appears (so ties keep the
earlier index). -/
def argmaxGo : ℚ → ℕ → ℕ → List ℚ → ℕ
  | _, bestIdx, _, [] => bestIdx
  | best, bestIdx, cur, y :: ys =>
    if best < y then argmaxGo y cur (cur + 1) ys else argmaxGo best bestIdx (cur + 1) ys

/-- Index of the first maximum of a row
(std::distance(begin, std::max_element(begin, end))). -/
def argmaxIdx : List ℚ → ℕ
  | [] => 0
  | x :: xs => argmaxGo x 0 1 xs

/-- RandomForest::predict: probabilities via predict_proba into a fresh
zero matrix, then per sample the distinct label at the arg-max of the
probability row.  Returns the final label vector (also on failure,
modelling the by-reference argument). -/
def RandomForest.predict {F A : Type} (rf : RandomForest F A) (acc : List A → List ℚ)
    (features : Mat F) (labels : List ℤ) (n_threads : ℤ) (hw : ℕ) (workerOf : ℕ → ℕ)
    (tree_indices : List ℕ) : List ℤ × Except String (ℕ × ℕ) :=
  if features.shape0 ≠ labels.length then
    (labels, .error "RandomForest::predict(): Shape mismatch between features and labels.")
  else if features.shape1 ≠ rf.problem_spec_.num_features_ then
    (labels, .error "RandomForest::predict(): Number of features in prediction differs from training.")
  else
    let probs0 : Mat ℚ := ⟨features.shape0, rf.problem_spec_.num_classes_, fun _ _ => 0⟩
    match rf.predict_proba acc features probs0 n_threads hw workerOf tree_indices with
    | (_, .error e) => (labels, .error e)
    | (probsM, .ok p) =>
      ((List.range features.shape0).map (fun i =>
        rf.problem_spec_.distinct_classes_.getD (argmaxIdx (probsM.row i)) 0), .ok p)

/-- Invariants of a well-formed forest (spec data model: acyclic, children
ids above the parent id as training and merge construct them, valid root
and child ids, a split test at every internal node, a response at every
leaf). -/
structure RandomForest.WFForest {F A : Type} (rf : RandomForest F A) : Prop where
  mono : ∀ n l r, rf.graph_.childrenOf n = some (l, r) → n < l ∧ n < r
  childrenValid : ∀ n l r, rf.graph_.childrenOf n = some (l, r) →
    l < rf.graph_.numNodes ∧ r < rf.graph_.numNodes
  rootsValid : ∀ root ∈ rf.graph_.roots, root < rf.graph_.numNodes
  splitTotal : ∀ n l r, rf.graph_.childrenOf n = some (l, r) →
    (rf.split_tests_.get n).isSome
  responsesAtLeaves : ∀ n, n < rf.graph_.numNodes → rf.graph_.childrenOf n = none →
    (rf.node_responses_.get n).isSome

/-- The traversal algorithm exactly as the specification words it: stop at
a node without children with zero further comparisons; at a node with two
children evaluate the split test, move to the child it selects and count
one comparison. -/
inductive TraversalSpec {F A : Type} (rf : RandomForest F A) (row : List F) :
    ℕ → ℕ × ℕ → Prop
  | leaf (node : ℕ) : rf.graph_.outDegree node = 0 → TraversalSpec rf row node (node, 0)
  | step (node l r : ℕ) (f : SplitTest F) (lf c : ℕ) :
      rf.graph_.childrenOf node = some (l, r) →
      rf.split_tests_.get node = some f →
      TraversalSpec rf row (rf.graph_.getChild node (f row)) (lf, c) →
      TraversalSpec rf row node (lf, c + 1)

/-- The fold that RandomForest::merge runs over the second forest's map
entries, reinserting them with the node-id offset. -/
def foldIns {α : Type} (m : PropertyMap α) (es : List (ℕ × α)) (off : ℕ) :
    PropertyMap α :=
  es.foldl (fun m2 p => m2.insert (p.1 + off) p.2) m
/-- The per-sample comparison total over a list of trees. -/
def sampleCount {F A : Type} (rf : RandomForest F A) (features : Mat F)
    (ks : List ℕ) (i : ℕ) : ℕ :=
  (ks.map (rf.countOf (features.row i))).sum
/-! Executable well-formedness checks, so that concrete forests can be
certified by evaluation. -/

def childOkB (g : BinaryForest) (n : ℕ) : Bool :=
  match g.childrenOf n with
  | none => true
  | some lr =>
    decide (n < lr.1) && decide (lr.1 < g.numNodes) &&
    decide (n < lr.2) && decide (lr.2 < g.numNodes)

def splitOkB {F A : Type} (rf : RandomForest F A) (n : ℕ) : Bool :=
  match rf.graph_.childrenOf n with
  | none => true
  | some _ => (rf.split_tests_.get n).isSome

def respOkB {F A : Type} (rf : RandomForest F A) (n : ℕ) : Bool :=
  match rf.graph_.childrenOf n with
  | none => (rf.node_responses_.get n).isSome
  | some _ => true

def wfB {F A : Type} (rf : RandomForest F A) : Bool :=
  ((List.range rf.graph_.numNodes).all
    (fun n => childOkB rf.graph_ n && splitOkB rf n && respOkB rf n)) &&
  rf.graph_.roots.all (fun r => decide (r < rf.graph_.numNodes))
/-! A concrete forest: the seven-node single-tree example of the design
document, with thresholds scaled to integers. -/

def exGraph : BinaryForest :=
  ⟨[some (1, 2), some (3, 4), some (5, 6), none, none, none, none], [0]⟩

def exRF : RandomForest ℤ ℕ :=
  { graph_ := exGraph,
    split_tests_ := ⟨[(0, fun row => if row.getD 0 0 < 6 then 0 else 1),
                      (1, fun row => if row.getD 1 0 < 3 then 0 else 1),
                      (2, fun row => if row.getD 1 0 < 8 then 0 else 1)]⟩,
    node_responses_ := ⟨[(3, 0), (4, 1), (5, 2), (6, 3)]⟩,
    problem_spec_ := ⟨2, 4, [0, 1, -7, 3]⟩ }

def exAcc : List ℕ → List ℚ := fun rs =>
  (List.range 4).map (fun j => if j ∈ rs then 1 else 0)

def exFeat : Mat ℤ :=
  ⟨8, 2, fun i b =>
    ([[2, 2], [4, 2], [2, 7], [4, 7], [7, 2], [8, 2], [7, 8], [8, 8]].getD i []).getD b 0⟩
/-- The response of the leaf that sample row reaches in tree k. -/
def RandomForest.respOf {F A : Type} [Inhabited A] (rf : RandomForest F A)
    (row : List F) (k : ℕ) : A :=
  (rf.node_responses_.get (rf.leafOf row k)).getD default

/-- The per-sample response list predict_proba hands to the accumulator:
responses of the reached leaves over the resolved tree set, in ascending
tree order. -/
def RandomForest.treeResponses {F A : Type} [Inhabited A] (rf : RandomForest F A)
    (features : Mat F) (tis : List ℕ) (i : ℕ) : List A :=
  (resolveIndices tis rf.graph_.numRoots).map (rf.respOf (features.row i))
/-- The four precondition messages of leaf_ids and the four of its
per-sample helper. -/
def leafIdsCheckMsgs : List String :=
  ["RandomForest::leaf_ids(): Shape mismatch between features and probabilities.",
   "RandomForest::leaf_ids(): Number of features in prediction differs from training.",
   "RandomForest::leaf_ids(): Leaf array has wrong shape.",
   "RandomForest::leaf_ids(): Tree index out of range.",
   "RandomForest::leaf_ids_impl(): Shape mismatch between features and labels.",
   "RandomForest::leaf_ids_impl(): Number of Features in prediction differs from training.",
   "RandomForest::leaf_ids_impl(): Indices out of range.",
   "RandomForest::leaf_ids_impl(): Leaf array has wrong shape."]
/-- The four precondition messages of predict_proba. -/
def predictProbaCheckMsgs : List String :=
  ["RandomForest::predict_proba(): Shape mismatch between features and probabilities.",
   "RandomForest::predict_proba(): Number of features in prediction differs from training.",
   "RandomForest::predict_proba(): Number of labels in probabilities differs from training.",
   "RandomForest::predict_proba(): Tree index out of range."]
/-- Every precondition message of the four public operations. -/
def allCheckMsgs : List String :=
  ["RandomForest::predict(): Shape mismatch between features and labels.",
   "RandomForest::predict(): Number of features in prediction differs from training.",
   "RandomForest::predict_proba(): Shape mismatch between features and probabilities.",
   "RandomForest::predict_proba(): Number of features in prediction differs from training.",
   "RandomForest::predict_proba(): Number of labels in probabilities differs from training.",
   "RandomForest::predict_proba(): Tree index out of range.",
   "RandomForest::leaf_ids(): Shape mismatch between features and probabilities.",
   "RandomForest::leaf_ids(): Number of features in prediction differs from training.",
   "RandomForest::leaf_ids(): Leaf array has wrong shape.",
   "RandomForest::leaf_ids(): Tree index out of range.",
   "RandomForest::merge(): You cannot merge with different problem specs."]
/-- The merged forest RandomForest::merge builds when the specification
check passes. -/
def mergedRF {F A : Type} (rf other : RandomForest F A) : RandomForest F A :=
  { graph_ := rf.graph_.merge other.graph_,
    split_tests_ := foldIns rf.split_tests_ other.split_tests_.entries rf.num_nodes,
    node_responses_ := foldIns rf.node_responses_ other.node_responses_.entries rf.num_nodes,
    problem_spec_ := rf.problem_spec_ }
instance {α : Type} (m : PropertyMap α) (bound : ℕ) : Decidable (m.keysBound bound) :=
  decidable_of_iff (∀ p ∈ m.entries, p.1 < bound) Iff.rfl

instance {α : Type} (m : PropertyMap α) : Decidable m.keysNodup :=
  decidable_of_iff ((m.entries.map Prod.fst).Nodup) Iff.rfl

/-! Facts about the sorted duplicate-free index lists built by
`toSortedSet` and `resolveIndices`. -/

theorem mem_sortedInsert (x : ℕ) (l : List ℕ) (a : ℕ) :
    a ∈ sortedInsert x l ↔ a = x ∨ a ∈ l := by
  induction l with
  | nil => simp [sortedInsert]
  | cons y ys ih =>
    by_cases h1 : x < y
    · simp [sortedInsert, h1]
    · by_cases h2 : x = y
      · subst h2
        rw [sortedInsert, if_neg h1, if_pos rfl]
        simp only [List.mem_cons]
        tauto
      · simp only [sortedInsert, if_neg h1, if_neg h2, List.mem_cons, ih]
        tauto

theorem sorted_sortedInsert (x : ℕ) (l : List ℕ) (hl : l.Sorted (· < ·)) :
    (sortedInsert x l).Sorted (· < ·) := by
  induction l with
  | nil => simp [sortedInsert]
  | cons y ys ih =>
    rw [List.sorted_cons] at hl
    by_cases h1 : x < y
    · rw [sortedInsert, if_pos h1, List.sorted_cons]
      refine ⟨?_, List.sorted_cons.2 hl⟩
      intro b hb
      rcases List.mem_cons.1 hb with hb | hb
      · omega
      · exact lt_trans h1 (hl.1 b hb)
    · by_cases h2 : x = y
      · subst h2
        rw [sortedInsert, if_neg h1, if_pos rfl]
        exact List.sorted_cons.2 hl
      · rw [sortedInsert, if_neg h1, if_neg h2, List.sorted_cons]
        refine ⟨?_, ih hl.2⟩
        intro b hb
        rcases (mem_sortedInsert x ys b).1 hb with hb | hb
        · omega
        · exact hl.1 b hb

theorem sortedInsert_ne_nil (x : ℕ) (l : List ℕ) : sortedInsert x l ≠ [] := by
  cases l with
  | nil => simp [sortedInsert]
  | cons y ys =>
    rw [sortedInsert]
    by_cases h1 : x < y
    · simp [h1]
    · by_cases h2 : x = y <;> simp [h1, h2]

theorem sortedInsert_sorted_mem (x : ℕ) (l : List ℕ) (hl : l.Sorted (· < ·))
    (hx : x ∈ l) : sortedInsert x l = l := by
  induction l with
  | nil => cases hx
  | cons y ys ih =>
    rw [List.sorted_cons] at hl
    rcases List.mem_cons.1 hx with hx | hx
    · subst hx
      rw [sortedInsert, if_neg (lt_irrefl x), if_pos rfl]
    · have hyx : y < x := hl.1 x hx
      rw [sortedInsert, if_neg (by omega), if_neg (by omega)]
      rw [ih hl.2 hx]

theorem sortedInsert_sorted_lt (x : ℕ) (l : List ℕ)
    (hx : ∀ b ∈ l, x < b) : sortedInsert x l = x :: l := by
  cases l with
  | nil => rfl
  | cons y ys => rw [sortedInsert, if_pos (hx y (List.mem_cons_self y ys))]

theorem toSortedSet_sorted (l : List ℕ) : (toSortedSet l).Sorted (· < ·) := by
  induction l with
  | nil => simp [toSortedSet]
  | cons x xs ih => exact sorted_sortedInsert x _ ih

theorem mem_toSortedSet (l : List ℕ) (a : ℕ) : a ∈ toSortedSet l ↔ a ∈ l := by
  induction l with
  | nil => simp [toSortedSet]
  | cons x xs ih =>
    show a ∈ sortedInsert x (toSortedSet xs) ↔ _
    rw [mem_sortedInsert, ih]
    simp

theorem toSortedSet_eq_nil (l : List ℕ) : toSortedSet l = [] ↔ l = [] := by
  cases l with
  | nil => simp [toSortedSet]
  | cons x xs =>
    simp only [toSortedSet, List.foldr_cons]
    exact ⟨fun h => absurd h (sortedInsert_ne_nil x _), fun h => by cases h⟩

theorem toSortedSet_of_sorted (l : List ℕ) (hl : l.Sorted (· < ·)) :
    toSortedSet l = l := by
  induction l with
  | nil => rfl
  | cons x xs ih =>
    rw [List.sorted_cons] at hl
    show sortedInsert x (toSortedSet xs) = x :: xs
    rw [ih hl.2]
    exact sortedInsert_sorted_lt x xs hl.1

theorem range_sorted (n : ℕ) : (List.range n).Sorted (· < ·) := by
  exact List.pairwise_lt_range n

theorem mem_resolveIndices (tis : List ℕ) (nr : ℕ)
    (h : ∀ j ∈ toSortedSet tis, j < nr) :
    ∀ k ∈ resolveIndices tis nr, k < nr := by
  intro k hk
  rw [resolveIndices] at hk
  by_cases he : toSortedSet tis = []
  · rw [if_pos he] at hk
    exact List.mem_range.1 hk
  · rw [if_neg he] at hk
    exact h k hk

theorem resolveIndices_sorted (tis : List ℕ) (nr : ℕ) :
    (resolveIndices tis nr).Sorted (· < ·) := by
  rw [resolveIndices]
  by_cases he : toSortedSet tis = []
  · rw [if_pos he]; exact range_sorted nr
  · rw [if_neg he]; exact toSortedSet_sorted tis

theorem resolveIndices_range (nr : ℕ) :
    resolveIndices (List.range nr) nr = List.range nr := by
  simp only [resolveIndices, toSortedSet_of_sorted _ (range_sorted nr)]
  split <;> rfl

theorem resolveIndices_idem (tis : List ℕ) (nr : ℕ) :
    resolveIndices (resolveIndices tis nr) nr = resolveIndices tis nr := by
  by_cases h2 : toSortedSet tis = []
  · have h3 : resolveIndices tis nr = List.range nr := by
      simp only [resolveIndices, if_pos h2]
    rw [h3, resolveIndices_range]
  · have h3 : resolveIndices tis nr = toSortedSet tis := by
      simp only [resolveIndices, if_neg h2]
    rw [h3]
    simp only [resolveIndices, toSortedSet_of_sorted _ (toSortedSet_sorted tis), if_neg h2]

theorem resolveIndices_eq_toSortedSet (tis : List ℕ) (nr : ℕ)
    (h : toSortedSet tis ≠ []) : resolveIndices tis nr = toSortedSet tis := by
  rw [resolveIndices, if_neg h]

/-! Facts about the attribute maps. -/

theorem pmLookup_mem {α : Type} (es : List (ℕ × α)) (k : ℕ) (v : α)
    (h : pmLookup es k = some v) : (k, v) ∈ es := by
  induction es with
  | nil => cases h
  | cons p rest ih =>
    obtain ⟨k0, v0⟩ := p
    rw [pmLookup] at h
    by_cases hk : k = k0
    · rw [if_pos hk] at h
      obtain rfl := hk
      obtain rfl : v0 = v := by injection h
      exact List.mem_cons_self _ _
    · rw [if_neg hk] at h
      exact List.mem_cons_of_mem _ (ih h)

theorem pmLookup_eq_none {α : Type} (es : List (ℕ × α)) (k : ℕ) :
    pmLookup es k = none ↔ ∀ p ∈ es, p.1 ≠ k := by
  induction es with
  | nil => simp [pmLookup]
  | cons p rest ih =>
    obtain ⟨k0, v0⟩ := p
    rw [pmLookup]
    by_cases hk : k = k0
    · simp [hk]
    · rw [if_neg hk, ih]
      constructor
      · intro h q hq
        rcases List.mem_cons.1 hq with rfl | hq
        · simp
          omega
        · exact h q hq
      · intro h q hq
        exact h q (List.mem_cons_of_mem _ hq)

theorem pmLookup_isSome_of_mem {α : Type} (es : List (ℕ × α)) (k : ℕ) (v : α)
    (h : (k, v) ∈ es) : (pmLookup es k).isSome := by
  cases hl : pmLookup es k with
  | some w => rfl
  | none =>
    exact absurd rfl ((pmLookup_eq_none es k).1 hl (k, v) h)

theorem get_insert_self {α : Type} (m : PropertyMap α) (k : ℕ) (v : α) :
    (m.insert k v).get k = some v := by
  show pmLookup (pmInsertList m.entries k v) k = some v
  induction m.entries with
  | nil => simp [pmInsertList, pmLookup]
  | cons p rest ih =>
    obtain ⟨k0, v0⟩ := p
    rw [pmInsertList]
    by_cases hk : k = k0
    · rw [if_pos hk, pmLookup, if_pos hk]
    · rw [if_neg hk, pmLookup, if_neg hk]
      exact ih

theorem get_insert_ne {α : Type} (m : PropertyMap α) (k k2 : ℕ) (v : α)
    (h : k ≠ k2) : (m.insert k2 v).get k = m.get k := by
  show pmLookup (pmInsertList m.entries k2 v) k = pmLookup m.entries k
  induction m.entries with
  | nil => simp [pmInsertList, pmLookup, h]
  | cons p rest ih =>
    obtain ⟨k0, v0⟩ := p
    rw [pmInsertList]
    by_cases hk : k2 = k0
    · obtain rfl := hk
      rw [if_pos rfl, pmLookup, pmLookup, if_neg h, if_neg h]
    · rw [if_neg hk, pmLookup, pmLookup]
      by_cases hk2 : k = k0
      · rw [if_pos hk2, if_pos hk2]
      · rw [if_neg hk2, if_neg hk2]
        exact ih

theorem foldIns_get_not_mem {α : Type} (es : List (ℕ × α)) (m : PropertyMap α)
    (off q : ℕ) (h : ∀ p ∈ es, p.1 + off ≠ q) :
    (foldIns m es off).get q = m.get q := by
  induction es generalizing m with
  | nil => rfl
  | cons p rest ih =>
    show (foldIns (m.insert (p.1 + off) p.2) rest off).get q = _
    rw [ih _ (fun p2 hp2 => h p2 (List.mem_cons_of_mem _ hp2))]
    exact get_insert_ne _ _ _ _ (fun he => h p (List.mem_cons_self _ _) he.symm)

theorem foldIns_get_mem {α : Type} (es : List (ℕ × α)) (m : PropertyMap α)
    (off n : ℕ) (v : α) (hnd : (es.map Prod.fst).Nodup) (h : (n, v) ∈ es) :
    (foldIns m es off).get (n + off) = some v := by
  induction es generalizing m with
  | nil => cases h
  | cons p rest ih =>
    rw [List.map_cons, List.nodup_cons] at hnd
    rcases List.mem_cons.1 h with rfl | h2
    · show (foldIns (m.insert (n + off) v) rest off).get (n + off) = some v
      rw [foldIns_get_not_mem]
      · exact get_insert_self _ _ _
      · intro p2 hp2 he
        have h3 : p2.1 = n := by omega
        exact hnd.1 (List.mem_map.2 ⟨p2, hp2, h3⟩)
    · exact ih _ hnd.2 h2

theorem get_none_of_keysBound {α : Type} (m : PropertyMap α) (off q : ℕ)
    (hb : m.keysBound off) (hq : off ≤ q) : m.get q = none := by
  rw [PropertyMap.get, pmLookup_eq_none]
  intro p hp
  have := hb p hp
  omega

/-- The merge re-keying in one sentence: looking a shifted key up in the
re-keyed combination reads exactly the second map, provided the base map
only holds keys below the offset and the source map holds each key
once. -/
theorem foldIns_get_shifted {α : Type} (base src : PropertyMap α) (off n : ℕ)
    (hb : base.keysBound off) (hnd : src.keysNodup) :
    (foldIns base src.entries off).get (n + off) = src.get n := by
  cases hl : src.get n with
  | some v =>
    exact foldIns_get_mem _ _ _ _ _ hnd (pmLookup_mem _ _ _ hl)
  | none =>
    rw [PropertyMap.get, pmLookup_eq_none] at hl
    rw [foldIns_get_not_mem]
    · exact get_none_of_keysBound base off _ hb (by omega)
    · intro p hp he
      exact hl p hp (by omega)

theorem foldIns_get_low {α : Type} (base src : PropertyMap α) (off q : ℕ)
    (hq : q < off) : (foldIns base src.entries off).get q = base.get q := by
  rw [foldIns_get_not_mem]
  intro p hp
  omega

/-! Facts about the root-to-leaf traversal. -/

theorem childrenOf_eq_none_of_ge {g : BinaryForest} {n : ℕ}
    (h : g.numNodes ≤ n) : g.childrenOf n = none := by
  rw [BinaryForest.childrenOf, List.getD_eq_default]
  exact h

theorem outDegree_eq_zero_iff {g : BinaryForest} {n : ℕ} :
    g.outDegree n = 0 ↔ g.childrenOf n = none := by
  rw [BinaryForest.outDegree]
  cases g.childrenOf n <;> simp

theorem walkFromNode_leaf {F A : Type} (rf : RandomForest F A) (row : List F)
    (fuel node : ℕ) (h : rf.graph_.childrenOf node = none) :
    rf.walkFromNode row (fuel + 1) node = some (node, 0) := by
  rw [RandomForest.walkFromNode, h]

theorem walkFromNode_step {F A : Type} (rf : RandomForest F A) (row : List F)
    (fuel node : ℕ) {l r : ℕ} {f : SplitTest F}
    (h : rf.graph_.childrenOf node = some (l, r))
    (hf : rf.split_tests_.get node = some f) :
    rf.walkFromNode row (fuel + 1) node =
      (rf.walkFromNode row fuel (rf.graph_.getChild node (f row))).map
        (fun p => (p.1, p.2 + 1)) := by
  rw [RandomForest.walkFromNode, h, hf]

theorem walkFromNode_mono {F A : Type} (rf : RandomForest F A) (row : List F) :
    ∀ fuel1 fuel2 node p, fuel1 ≤ fuel2 →
      rf.walkFromNode row fuel1 node = some p →
      rf.walkFromNode row fuel2 node = some p := by
  intro fuel1
  induction fuel1 with
  | zero =>
    intro fuel2 node p _ h
    cases h
  | succ fuel ih =>
    intro fuel2 node p hle h
    obtain ⟨fuel2x, rfl⟩ : ∃ m, fuel2 = m + 1 := ⟨fuel2 - 1, by omega⟩
    cases hc : rf.graph_.childrenOf node with
    | none =>
      rw [walkFromNode_leaf rf row _ _ hc] at h ⊢
      exact h
    | some lr =>
      obtain ⟨l, r⟩ := lr
      cases hf : rf.split_tests_.get node with
      | none =>
        rw [RandomForest.walkFromNode, hc, hf] at h
        cases h
      | some f =>
        rw [walkFromNode_step rf row _ _ hc hf] at h ⊢
        rcases Option.map_eq_some'.1 h with ⟨q, hq, hqp⟩
        rw [ih fuel2x _ q (by omega) hq]
        rw [← hqp]
        rfl

theorem walkFromNode_isSome {F A : Type} (rf : RandomForest F A) (row : List F)
    (hm : ∀ n l r, rf.graph_.childrenOf n = some (l, r) → n < l ∧ n < r)
    (hs : ∀ n l r, rf.graph_.childrenOf n = some (l, r) →
      (rf.split_tests_.get n).isSome) :
    ∀ fuel node, rf.graph_.numNodes ≤ node + fuel →
      ∃ p, rf.walkFromNode row (fuel + 1) node = some p := by
  intro fuel
  induction fuel with
  | zero =>
    intro node h
    have hc : rf.graph_.childrenOf node = none :=
      childrenOf_eq_none_of_ge (by omega)
    exact ⟨(node, 0), walkFromNode_leaf rf row 0 node hc⟩
  | succ fuel ih =>
    intro node h
    cases hc : rf.graph_.childrenOf node with
    | none => exact ⟨(node, 0), walkFromNode_leaf rf row _ node hc⟩
    | some lr =>
      obtain ⟨l, r⟩ := lr
      obtain ⟨f, hf⟩ := Option.isSome_iff_exists.1 (hs node l r hc)
      have hlr := hm node l r hc
      have hchild : node < rf.graph_.getChild node (f row) := by
        simp only [BinaryForest.getChild, hc]
        by_cases h0 : f row = 0
        · rw [if_pos h0]; exact hlr.1
        · rw [if_neg h0]; exact hlr.2
      obtain ⟨q, hq⟩ := ih (rf.graph_.getChild node (f row)) (by omega)
      refine ⟨(q.1, q.2 + 1), ?_⟩
      rw [walkFromNode_step rf row _ _ hc hf, hq]
      rfl

theorem walkFromNode_traversalSpec {F A : Type} (rf : RandomForest F A) (row : List F) :
    ∀ fuel node p, rf.walkFromNode row fuel node = some p →
      TraversalSpec rf row node p := by
  intro fuel
  induction fuel with
  | zero =>
    intro node p h
    cases h
  | succ fuel ih =>
    intro node p h
    cases hc : rf.graph_.childrenOf node with
    | none =>
      rw [walkFromNode_leaf rf row _ _ hc] at h
      obtain rfl : (node, 0) = p := by injection h
      exact TraversalSpec.leaf node (outDegree_eq_zero_iff.2 hc)
    | some lr =>
      obtain ⟨l, r⟩ := lr
      cases hf : rf.split_tests_.get node with
      | none =>
        rw [RandomForest.walkFromNode, hc, hf] at h
        cases h
      | some f =>
        rw [walkFromNode_step rf row _ _ hc hf] at h
        rcases Option.map_eq_some'.1 h with ⟨q, hq, hqp⟩
        obtain rfl : (q.1, q.2 + 1) = p := hqp
        exact TraversalSpec.step node l r f q.1 q.2 hc hf (ih _ (q.1, q.2) hq)

theorem walkFromNode_leaf_deg {F A : Type} (rf : RandomForest F A) (row : List F) :
    ∀ fuel node lf c, rf.walkFromNode row fuel node = some (lf, c) →
      rf.graph_.childrenOf lf = none := by
  intro fuel
  induction fuel with
  | zero =>
    intro node lf c h
    cases h
  | succ fuel ih =>
    intro node lf c h
    cases hc : rf.graph_.childrenOf node with
    | none =>
      rw [walkFromNode_leaf rf row _ _ hc] at h
      obtain rfl : node = lf := by injection h with h2; exact congrArg Prod.fst h2
      exact hc
    | some lr =>
      obtain ⟨l, r⟩ := lr
      cases hf : rf.split_tests_.get node with
      | none =>
        rw [RandomForest.walkFromNode, hc, hf] at h
        cases h
      | some f =>
        rw [walkFromNode_step rf row _ _ hc hf] at h
        rcases Option.map_eq_some'.1 h with ⟨q, hq, hqp⟩
        have : q.1 = lf := congrArg Prod.fst hqp
        exact this ▸ ih _ q.1 q.2 (by rw [hq])

theorem walkFromNode_leaf_lt {F A : Type} (rf : RandomForest F A) (row : List F)
    (hv : ∀ n l r, rf.graph_.childrenOf n = some (l, r) →
      l < rf.graph_.numNodes ∧ r < rf.graph_.numNodes) :
    ∀ fuel node lf c, node < rf.graph_.numNodes →
      rf.walkFromNode row fuel node = some (lf, c) → lf < rf.graph_.numNodes := by
  intro fuel
  induction fuel with
  | zero =>
    intro node lf c _ h
    cases h
  | succ fuel ih =>
    intro node lf c hn h
    cases hc : rf.graph_.childrenOf node with
    | none =>
      rw [walkFromNode_leaf rf row _ _ hc] at h
      obtain rfl : node = lf := by injection h with h2; exact congrArg Prod.fst h2
      exact hn
    | some lr =>
      obtain ⟨l, r⟩ := lr
      cases hf : rf.split_tests_.get node with
      | none =>
        rw [RandomForest.walkFromNode, hc, hf] at h
        cases h
      | some f =>
        rw [walkFromNode_step rf row _ _ hc hf] at h
        rcases Option.map_eq_some'.1 h with ⟨q, hq, hqp⟩
        have hlt : rf.graph_.getChild node (f row) < rf.graph_.numNodes := by
          simp only [BinaryForest.getChild, hc]
          have := hv node l r hc
          by_cases h0 : f row = 0
          · rw [if_pos h0]; exact this.1
          · rw [if_neg h0]; exact this.2
        have h1 : q.1 = lf := congrArg Prod.fst hqp
        exact h1 ▸ ih _ q.1 q.2 hlt (by rw [hq])

theorem walkResult_isSome {F A : Type} (rf : RandomForest F A) (row : List F) (k : ℕ)
    (hm : ∀ n l r, rf.graph_.childrenOf n = some (l, r) → n < l ∧ n < r)
    (hs : ∀ n l r, rf.graph_.childrenOf n = some (l, r) →
      (rf.split_tests_.get n).isSome) :
    rf.walkResult row k = some (rf.leafOf row k, rf.countOf row k) := by
  obtain ⟨p, hp⟩ := walkFromNode_isSome rf row hm hs rf.graph_.numNodes
    (rf.graph_.getRoot k) (by omega)
  rw [RandomForest.walkResult, hp, RandomForest.leafOf, RandomForest.countOf,
    RandomForest.walkResult, hp]
  rfl

theorem walkResult_isSome_wf {F A : Type} (rf : RandomForest F A) (row : List F) (k : ℕ)
    (hwf : rf.WFForest) :
    rf.walkResult row k = some (rf.leafOf row k, rf.countOf row k) :=
  walkResult_isSome rf row k hwf.mono hwf.splitTotal

theorem leafOf_lt {F A : Type} (rf : RandomForest F A) (row : List F) (k : ℕ)
    (hwf : rf.WFForest) (hk : k < rf.graph_.numRoots) :
    rf.leafOf row k < rf.graph_.numNodes := by
  have hroot : rf.graph_.getRoot k < rf.graph_.numNodes := by
    apply hwf.rootsValid
    rw [BinaryForest.getRoot, List.getD_eq_getElem?_getD]
    rw [List.getElem?_eq_getElem hk]
    exact List.getElem_mem hk
  have h := walkResult_isSome_wf rf row k hwf
  rw [RandomForest.walkResult] at h
  exact walkFromNode_leaf_lt rf row hwf.childrenValid _ _ _ _ hroot h

theorem respOf_isSome {F A : Type} (rf : RandomForest F A) (row : List F) (k : ℕ)
    (hwf : rf.WFForest) (hk : k < rf.graph_.numRoots) :
    (rf.node_responses_.get (rf.leafOf row k)).isSome := by
  have h := walkResult_isSome_wf rf row k hwf
  rw [RandomForest.walkResult] at h
  have hleaf := walkFromNode_leaf_deg rf row _ _ _ _ h
  exact hwf.responsesAtLeaves _ (leafOf_lt rf row k hwf hk) hleaf

/-! Facts about the loops of leaf_ids_impl and leaf_ids. -/

theorem setEntry_shape0 {α : Type} (m : Mat α) (i k : ℕ) (v : α) :
    (m.setEntry i k v).shape0 = m.shape0 := rfl

theorem setEntry_shape1 {α : Type} (m : Mat α) (i k : ℕ) (v : α) :
    (m.setEntry i k v).shape1 = m.shape1 := rfl

theorem walkResult_eq {F A : Type} (rf : RandomForest F A) (row : List F) (k : ℕ)
    (h : (rf.walkResult row k).isSome) :
    rf.walkResult row k = some (rf.leafOf row k, rf.countOf row k) := by
  obtain ⟨p, hp⟩ := Option.isSome_iff_exists.1 h
  rw [RandomForest.leafOf, RandomForest.countOf, hp]
  rfl

theorem treesLoop_char {F A : Type} (rf : RandomForest F A) (row : List F) (i : ℕ)
    (ks : List ℕ) (ids : Mat ℤ)
    (hks : ∀ k ∈ ks, (rf.walkResult row k).isSome) :
    (rf.treesLoop row i ks ids).2 = .ok ((ks.map (rf.countOf row)).sum) ∧
    ∀ a b, (rf.treesLoop row i ks ids).1.entry a b =
      if a = i ∧ b ∈ ks then (rf.leafOf row b : ℤ) else ids.entry a b := by
  induction ks generalizing ids with
  | nil =>
    constructor
    · rfl
    · intro a b
      simp [RandomForest.treesLoop]
  | cons k ks ih =>
    have hk : rf.walkResult row k = some (rf.leafOf row k, rf.countOf row k) :=
      walkResult_eq rf row k (hks k (List.mem_cons_self _ _))
    have ihx := ih (ids.setEntry i k (rf.leafOf row k : ℤ))
      (fun k2 hk2 => hks k2 (List.mem_cons_of_mem _ hk2))
    have hloop : rf.treesLoop row i (k :: ks) ids =
        ((rf.treesLoop row i ks (ids.setEntry i k (rf.leafOf row k : ℤ))).1,
          .ok (rf.countOf row k + (ks.map (rf.countOf row)).sum)) := by
      rw [RandomForest.treesLoop, hk]
      dsimp only
      rcases hrec : rf.treesLoop row i ks (ids.setEntry i k (rf.leafOf row k : ℤ))
        with ⟨ids1, st⟩
      have h2 := ihx.1
      rw [hrec] at h2
      dsimp only at h2
      subst h2
      rfl
    constructor
    · rw [hloop]
      simp [List.sum_cons]
    · intro a b
      rw [hloop]
      dsimp only
      rw [ihx.2 a b]
      by_cases ha : a = i
      · subst ha
        by_cases hb1 : b ∈ ks
        · simp [hb1, List.mem_cons]
        · by_cases hb2 : b = k
          · subst hb2
            simp [hb1, Mat.setEntry]
          · simp [hb1, hb2, Mat.setEntry]
      · simp [ha, Mat.setEntry]

theorem treesLoop_shape {F A : Type} (rf : RandomForest F A) (row : List F) (i : ℕ)
    (ks : List ℕ) (ids : Mat ℤ) :
    (rf.treesLoop row i ks ids).1.shape0 = ids.shape0 ∧
    (rf.treesLoop row i ks ids).1.shape1 = ids.shape1 := by
  induction ks generalizing ids with
  | nil => exact ⟨rfl, rfl⟩
  | cons k ks ih =>
    rw [RandomForest.treesLoop]
    cases hk : rf.walkResult row k with
    | none => exact ⟨rfl, rfl⟩
    | some lc =>
      have h1 := ih (ids.setEntry i k (lc.1 : ℤ))
      rcases hrec : rf.treesLoop row i ks (ids.setEntry i k (lc.1 : ℤ)) with ⟨ids1, st⟩
      rw [hrec] at h1
      dsimp only
      rw [hrec]
      cases st <;> exact h1

theorem samplesLoop_char {F A : Type} (rf : RandomForest F A) (features : Mat F)
    (ks : List ℕ) (is2 : List ℕ) (ids : Mat ℤ)
    (hall : ∀ i ∈ is2, ∀ k ∈ ks, (rf.walkResult (features.row i) k).isSome) :
    (rf.samplesLoop features ks is2 ids).2 =
      .ok (is2.map (sampleCount rf features ks)) ∧
    ∀ a b, (rf.samplesLoop features ks is2 ids).1.entry a b =
      if a ∈ is2 ∧ b ∈ ks then (rf.leafOf (features.row a) b : ℤ) else ids.entry a b := by
  induction is2 generalizing ids with
  | nil =>
    constructor
    · rfl
    · intro a b
      simp [RandomForest.samplesLoop]
  | cons i rest ih =>
    have htl := treesLoop_char rf (features.row i) i ks ids
      (hall i (List.mem_cons_self _ _))
    have ihx := ih (rf.treesLoop (features.row i) i ks ids).1
      (fun i2 hi2 => hall i2 (List.mem_cons_of_mem _ hi2))
    have hloop : rf.samplesLoop features ks (i :: rest) ids =
        ((rf.samplesLoop features ks rest (rf.treesLoop (features.row i) i ks ids).1).1,
          .ok (sampleCount rf features ks i :: rest.map (sampleCount rf features ks))) := by
      rw [RandomForest.samplesLoop]
      have h2 := htl.1
      have h5 := ihx.1
      rcases h1 : rf.treesLoop (features.row i) i ks ids with ⟨ids1, st1⟩
      rw [h1] at h2 h5
      dsimp only at h2 h5 ⊢
      subst h2
      dsimp only
      rcases h3 : rf.samplesLoop features ks rest ids1 with ⟨ids2, st2⟩
      rw [h3] at h5
      dsimp only at h5 ⊢
      subst h5
      rfl
    constructor
    · rw [hloop]
      rfl
    · intro a b
      rw [hloop]
      dsimp only
      have h6 := ihx.2 a b
      rw [h6, htl.2 a b]
      by_cases ha1 : a ∈ rest
      · by_cases hb : b ∈ ks
        · simp [ha1, hb, List.mem_cons]
        · simp [hb]
      · by_cases ha2 : a = i
        · subst ha2
          by_cases hb : b ∈ ks
          · simp [ha1, hb, List.mem_cons]
          · simp [hb]
        · have h7 : a ∉ (i :: rest) := by
            simp [ha1, ha2]
          simp [ha1, ha2, h7]

theorem samplesLoop_shape {F A : Type} (rf : RandomForest F A) (features : Mat F)
    (ks : List ℕ) (is2 : List ℕ) (ids : Mat ℤ) :
    (rf.samplesLoop features ks is2 ids).1.shape0 = ids.shape0 ∧
    (rf.samplesLoop features ks is2 ids).1.shape1 = ids.shape1 := by
  induction is2 generalizing ids with
  | nil => exact ⟨rfl, rfl⟩
  | cons i rest ih =>
    rw [RandomForest.samplesLoop]
    have h1 := treesLoop_shape rf (features.row i) i ks ids
    rcases hrec : rf.treesLoop (features.row i) i ks ids with ⟨ids1, st1⟩
    rw [hrec] at h1
    simp only at h1
    cases st1 with
    | error e => exact h1
    | ok c =>
      dsimp only
      have h2 := ih ids1
      rcases h3 : rf.samplesLoop features ks rest ids1 with ⟨ids2, st2⟩
      rw [h3] at h2
      dsimp only at h2
      cases st2 <;> exact ⟨h2.1.trans h1.1, h2.2.trans h1.2⟩

theorem leaf_ids_impl_eq_treesLoop {F A : Type} (rf : RandomForest F A)
    (features : Mat F) (ids : Mat ℤ) (i : ℕ) (ks : List ℕ)
    (h0 : features.shape0 = ids.shape0)
    (h1 : features.shape1 = rf.problem_spec_.num_features_)
    (h2 : ids.shape1 = rf.graph_.numRoots)
    (hi : i < features.shape0) :
    rf.leaf_ids_impl features ids i (i + 1) ks =
      rf.treesLoop (features.row i) i ks ids := by
  rw [RandomForest.leaf_ids_impl, if_neg (not_not_intro h0), if_neg (not_not_intro h1),
    if_neg (not_not_intro ⟨by omega, by omega⟩), if_neg (not_not_intro h2)]
  have hr : List.range' i (i + 1 - i) = [i] := by
    rw [Nat.add_sub_cancel_left]
    rfl
  rw [hr, RandomForest.samplesLoop]
  rcases ht : rf.treesLoop (features.row i) i ks ids with ⟨ids1, st⟩
  cases st with
  | error e => rfl
  | ok c => rfl

theorem runItems_eq_samplesLoop {F A : Type} (rf : RandomForest F A)
    (features : Mat F) (ks : List ℕ) (items : List ℕ) (ids : Mat ℤ)
    (h0 : features.shape0 = ids.shape0)
    (h1 : features.shape1 = rf.problem_spec_.num_features_)
    (h2 : ids.shape1 = rf.graph_.numRoots)
    (hmem : ∀ i ∈ items, i < features.shape0) :
    rf.runItems features ks items ids = rf.samplesLoop features ks items ids := by
  induction items generalizing ids with
  | nil => rfl
  | cons i rest ih =>
    rw [RandomForest.runItems, RandomForest.samplesLoop,
      leaf_ids_impl_eq_treesLoop rf features ids i ks h0 h1 h2
        (hmem i (List.mem_cons_self _ _))]
    have hsh := treesLoop_shape rf (features.row i) i ks ids
    rcases ht : rf.treesLoop (features.row i) i ks ids with ⟨ids1, st⟩
    rw [ht] at hsh
    dsimp only at hsh
    cases st with
    | error e => rfl
    | ok c =>
      dsimp only
      rw [ih ids1 (h0.trans hsh.1.symm) (hsh.2.trans h2)
        (fun i2 hi2 => hmem i2 (List.mem_cons_of_mem _ hi2))]

theorem treesLoop_error {F A : Type} (rf : RandomForest F A) (row : List F) (i : ℕ)
    (ks : List ℕ) :
    ∀ (ids : Mat ℤ) (e : String),
      (rf.treesLoop row i ks ids).2 = .error e → e = lookupFailMsg := by
  induction ks with
  | nil =>
    intro ids e h
    cases h
  | cons k ks ih =>
    intro ids e h
    rw [RandomForest.treesLoop] at h
    cases hk : rf.walkResult row k with
    | none =>
      rw [hk] at h
      dsimp only at h
      injection h with h2
      exact h2.symm
    | some lc =>
      rw [hk] at h
      dsimp only at h
      rcases ht : rf.treesLoop row i ks (ids.setEntry i k (lc.1 : ℤ)) with ⟨ids1, st⟩
      rw [ht] at h
      cases st with
      | ok c => cases h
      | error e2 =>
        dsimp only at h
        injection h with h2
        subst h2
        have h3 := ih (ids.setEntry i k (lc.1 : ℤ)) e2
        rw [ht] at h3
        exact h3 rfl

theorem samplesLoop_error {F A : Type} (rf : RandomForest F A) (features : Mat F)
    (ks : List ℕ) (is2 : List ℕ) :
    ∀ (ids : Mat ℤ) (e : String),
      (rf.samplesLoop features ks is2 ids).2 = .error e → e = lookupFailMsg := by
  induction is2 with
  | nil =>
    intro ids e h
    cases h
  | cons i rest ih =>
    intro ids e h
    rw [RandomForest.samplesLoop] at h
    rcases ht : rf.treesLoop (features.row i) i ks ids with ⟨ids1, st1⟩
    rw [ht] at h
    cases st1 with
    | error e2 =>
      dsimp only at h
      injection h with h2
      subst h2
      have h3 := treesLoop_error rf (features.row i) i ks ids e2
      rw [ht] at h3
      exact h3 rfl
    | ok c =>
      dsimp only at h
      rcases hs : rf.samplesLoop features ks rest ids1 with ⟨ids2, st2⟩
      rw [hs] at h
      cases st2 with
      | ok cs => cases h
      | error e2 =>
        dsimp only at h
        injection h with h2
        subst h2
        have h3 := ih ids1 e2
        rw [hs] at h3
        exact h3 rfl

theorem samplesLoop_length {F A : Type} (rf : RandomForest F A) (features : Mat F)
    (ks : List ℕ) (is2 : List ℕ) :
    ∀ (ids : Mat ℤ) (cs : List ℕ),
      (rf.samplesLoop features ks is2 ids).2 = .ok cs → cs.length = is2.length := by
  induction is2 with
  | nil =>
    intro ids cs h
    obtain rfl : [] = cs := by injection h
    rfl
  | cons i rest ih =>
    intro ids cs h
    rw [RandomForest.samplesLoop] at h
    rcases ht : rf.treesLoop (features.row i) i ks ids with ⟨ids1, st1⟩
    rw [ht] at h
    cases st1 with
    | error e2 => cases h
    | ok c =>
      dsimp only at h
      rcases hs : rf.samplesLoop features ks rest ids1 with ⟨ids2, st2⟩
      rw [hs] at h
      cases st2 with
      | error e2 => cases h
      | ok cs2 =>
        dsimp only at h
        obtain rfl : c :: cs2 = cs := by injection h
        have h3 := ih ids1 cs2
        rw [hs] at h3
        simp [h3 rfl]

theorem workerSum_eq (t : ℕ) (workerOf : ℕ → ℕ) (cs : List ℕ)
    (h : ∀ i < cs.length, workerOf i < t) : workerSum t workerOf cs = cs.sum := by
  rw [workerSum, Finset.sum_comm]
  have h1 : ∀ i ∈ Finset.range cs.length,
      (∑ w ∈ Finset.range t, if workerOf i = w then cs.getD i 0 else 0) = cs.getD i 0 := by
    intro i hi
    rw [Finset.sum_ite_eq (Finset.range t) (workerOf i) (fun _ => cs.getD i 0)]
    rw [if_pos (Finset.mem_range.2 (h i (Finset.mem_range.1 hi)))]
  rw [Finset.sum_congr rfl h1]
  clear h h1
  induction cs with
  | nil => rfl
  | cons c rest ih =>
    rw [List.length_cons, Finset.sum_range_succ', List.sum_cons]
    simp only [List.getD_cons_succ, List.getD_cons_zero]
    rw [ih]
    omega

/-- Master characterization of leaf_ids on valid inputs: the checks pass,
the matrix is the fill-then-traverse result and the returned pair is the
total comparison count over all samples together with the sample count. -/
theorem leaf_ids_eq {F A : Type} (rf : RandomForest F A) (features : Mat F)
    (ids : Mat ℤ) (n_threads : ℤ) (hw : ℕ) (workerOf : ℕ → ℕ) (tis : List ℕ)
    (h0 : features.shape0 = ids.shape0)
    (h1 : features.shape1 = rf.problem_spec_.num_features_)
    (h2 : ids.shape1 = rf.graph_.numRoots)
    (htis : ∀ j ∈ tis, j < rf.graph_.numRoots)
    (hwalk : ∀ i, i < features.shape0 →
      ∀ k ∈ resolveIndices tis rf.graph_.numRoots,
        (rf.walkResult (features.row i) k).isSome)
    (hworker : ∀ i, i < features.shape0 → workerOf i < resolveThreads hw n_threads) :
    rf.leaf_ids features ids n_threads hw workerOf tis =
      ((rf.samplesLoop features (resolveIndices tis rf.graph_.numRoots)
          (List.range features.shape0) (ids.fill (-1))).1,
        .ok (((List.range features.shape0).map
            (sampleCount rf features (resolveIndices tis rf.graph_.numRoots))).sum,
          features.shape0)) := by
  have hstis : ∀ i ∈ toSortedSet tis, i < rf.graph_.numRoots := by
    intro i hi
    exact htis i ((mem_toSortedSet tis i).1 hi)
  rw [RandomForest.leaf_ids, if_neg (not_not_intro h0), if_neg (not_not_intro h1),
    if_neg (not_not_intro h2), if_neg (not_not_intro hstis)]
  dsimp only
  rw [runItems_eq_samplesLoop rf features (resolveIndices tis rf.graph_.numRoots)
    (List.range features.shape0) (ids.fill (-1)) h0 h1 h2
    (fun i hi => List.mem_range.1 hi)]
  have hchar := samplesLoop_char rf features (resolveIndices tis rf.graph_.numRoots)
    (List.range features.shape0) (ids.fill (-1))
    (fun i hi k hk => hwalk i (List.mem_range.1 hi) k hk)
  have hlen := samplesLoop_length rf features (resolveIndices tis rf.graph_.numRoots)
    (List.range features.shape0) (ids.fill (-1))
  rcases hs : rf.samplesLoop features (resolveIndices tis rf.graph_.numRoots)
    (List.range features.shape0) (ids.fill (-1)) with ⟨out, st⟩
  have hc1 := hchar.1
  rw [hs] at hc1
  dsimp only at hc1
  subst hc1
  dsimp only
  have hlen2 : (List.map (sampleCount rf features
      (resolveIndices tis rf.graph_.numRoots)) (List.range features.shape0)).length =
      features.shape0 := by
    rw [List.length_map, List.length_range]
  rw [workerSum_eq _ _ _ (fun i hi => hworker i (by omega))]

/-- On valid inputs the entries of the matrix leaf_ids returns are the
traversal leaves at the requested cells and the -1 sentinel elsewhere. -/
theorem leaf_ids_entries {F A : Type} (rf : RandomForest F A) (features : Mat F)
    (ids : Mat ℤ) (n_threads : ℤ) (hw : ℕ) (workerOf : ℕ → ℕ) (tis : List ℕ)
    (h0 : features.shape0 = ids.shape0)
    (h1 : features.shape1 = rf.problem_spec_.num_features_)
    (h2 : ids.shape1 = rf.graph_.numRoots)
    (htis : ∀ j ∈ tis, j < rf.graph_.numRoots)
    (hwalk : ∀ i, i < features.shape0 →
      ∀ k ∈ resolveIndices tis rf.graph_.numRoots,
        (rf.walkResult (features.row i) k).isSome)
    (hworker : ∀ i, i < features.shape0 → workerOf i < resolveThreads hw n_threads) :
    ∀ a b, (rf.leaf_ids features ids n_threads hw workerOf tis).1.entry a b =
      if a < features.shape0 ∧ b ∈ resolveIndices tis rf.graph_.numRoots
      then (rf.leafOf (features.row a) b : ℤ) else -1 := by
  intro a b
  rw [leaf_ids_eq rf features ids n_threads hw workerOf tis h0 h1 h2 htis hwalk hworker]
  dsimp only
  have hchar := samplesLoop_char rf features (resolveIndices tis rf.graph_.numRoots)
    (List.range features.shape0) (ids.fill (-1))
    (fun i hi k hk => hwalk i (List.mem_range.1 hi) k hk)
  rw [hchar.2 a b]
  simp only [List.mem_range, Mat.fill]

theorem walkResult_isSome_of_wf {F A : Type} (rf : RandomForest F A) (row : List F)
    (k : ℕ) (hwf : rf.WFForest) : (rf.walkResult row k).isSome := by
  rw [walkResult_isSome_wf rf row k hwf]
  rfl

theorem WFForest_of_wfB {F A : Type} (rf : RandomForest F A) (h : wfB rf = true) :
    rf.WFForest := by
  rw [wfB, Bool.and_eq_true, List.all_eq_true, List.all_eq_true] at h
  have hnode : ∀ n, n < rf.graph_.numNodes →
      childOkB rf.graph_ n = true ∧ splitOkB rf n = true ∧ respOkB rf n = true := by
    intro n hn
    have := h.1 n (List.mem_range.2 hn)
    rw [Bool.and_eq_true, Bool.and_eq_true] at this
    exact ⟨this.1.1, this.1.2, this.2⟩
  have hlt : ∀ n l r, rf.graph_.childrenOf n = some (l, r) → n < rf.graph_.numNodes := by
    intro n l r hc
    by_contra hn
    rw [childrenOf_eq_none_of_ge (by omega)] at hc
    cases hc
  constructor
  · intro n l r hc
    have h2 := (hnode n (hlt n l r hc)).1
    rw [childOkB, hc] at h2
    simp only [Bool.and_eq_true, decide_eq_true_eq] at h2
    exact ⟨h2.1.1.1, h2.1.2⟩
  · intro n l r hc
    have h2 := (hnode n (hlt n l r hc)).1
    rw [childOkB, hc] at h2
    simp only [Bool.and_eq_true, decide_eq_true_eq] at h2
    exact ⟨h2.1.1.2, h2.2⟩
  · intro root hr
    have := h.2 root hr
    rwa [decide_eq_true_eq] at this
  · intro n l r hc
    have h2 := (hnode n (hlt n l r hc)).2.1
    rwa [splitOkB, hc] at h2
  · intro n hn hc
    have h2 := (hnode n hn).2.2
    rwa [respOkB, hc] at h2

/-- C1: for every feature row of the correct length and tree index in
range, the traversal engine starts at the tree's root and satisfies the
specification loop (while the node has two children, evaluate its split
test, move to the selected child in 0/1 and count one comparison; stop at
the first node without children, which is the returned leaf); a root
without children is itself the returned leaf with exactly zero
comparisons, and no split test is evaluated for it (the result is the
same for every split-test map). -/
theorem C1_traversal {F A : Type} (rf : RandomForest F A) (row : List F) (k : ℕ)
    (hm : ∀ n l r, rf.graph_.childrenOf n = some (l, r) → n < l ∧ n < r)
    (hs : ∀ n l r, rf.graph_.childrenOf n = some (l, r) →
      (rf.split_tests_.get n).isSome)
    (hk : k < rf.graph_.numRoots)
    (hrow : row.length = rf.problem_spec_.num_features_) :
    ∃ lf c, rf.walkResult row k = some (lf, c) ∧
      TraversalSpec rf row (rf.graph_.getRoot k) (lf, c) ∧
      rf.graph_.outDegree lf = 0 ∧
      (rf.graph_.outDegree (rf.graph_.getRoot k) = 0 →
        lf = rf.graph_.getRoot k ∧ c = 0 ∧
        ∀ st2 : PropertyMap (SplitTest F),
          ({ rf with split_tests_ := st2 } : RandomForest F A).walkResult row k =
            some (rf.graph_.getRoot k, 0)) := by
  have heq := walkResult_isSome rf row k hm hs
  refine ⟨rf.leafOf row k, rf.countOf row k, heq, ?_, ?_, ?_⟩
  · exact walkFromNode_traversalSpec rf row _ _ _ heq
  · rw [outDegree_eq_zero_iff]
    exact walkFromNode_leaf_deg rf row _ _ _ _ heq
  · intro hroot
    rw [outDegree_eq_zero_iff] at hroot
    have hleaf : rf.walkResult row k = some (rf.graph_.getRoot k, 0) := by
      rw [RandomForest.walkResult]
      exact walkFromNode_leaf rf row _ _ hroot
    rw [heq] at hleaf
    injection hleaf with h2
    refine ⟨congrArg Prod.fst h2, congrArg Prod.snd h2, ?_⟩
    intro st2
    rw [RandomForest.walkResult]
    exact walkFromNode_leaf _ row _ _ hroot

/-- C1 witness: the traversal theorem applied to the concrete seven-node
forest, sample (2, 2), tree 0. -/
theorem C1_traversal_witness :
    ∃ lf c, exRF.walkResult [2, 2] 0 = some (lf, c) ∧
      TraversalSpec exRF [2, 2] (exRF.graph_.getRoot 0) (lf, c) ∧
      exRF.graph_.outDegree lf = 0 ∧
      (exRF.graph_.outDegree (exRF.graph_.getRoot 0) = 0 →
        lf = exRF.graph_.getRoot 0 ∧ c = 0 ∧
        ∀ st2 : PropertyMap (SplitTest ℤ),
          ({ exRF with split_tests_ := st2 } : RandomForest ℤ ℕ).walkResult [2, 2] 0 =
            some (exRF.graph_.getRoot 0, 0)) :=
  C1_traversal exRF [2, 2] 0 (WFForest_of_wfB exRF (by decide)).mono
    (WFForest_of_wfB exRF (by decide)).splitTotal (by decide) (by decide)

/-- C2: a valid leaf_ids call fills every requested cell (i, k) with the
leaf reached by sample i in tree k, resets every other cell to the -1
sentinel whatever the matrix held before, resolves an empty tree-index
list to all trees, and returns the pair of the total comparison count and
the sample count, whose quotient is the returned average. -/
theorem C2_leaf_ids {F A : Type} (rf : RandomForest F A) (features : Mat F)
    (ids : Mat ℤ) (n_threads : ℤ) (hw : ℕ) (workerOf : ℕ → ℕ) (tis : List ℕ)
    (hwf : rf.WFForest)
    (h0 : features.shape0 = ids.shape0)
    (h1 : features.shape1 = rf.problem_spec_.num_features_)
    (h2 : ids.shape1 = rf.graph_.numRoots)
    (htis : ∀ j ∈ tis, j < rf.graph_.numRoots)
    (hworker : ∀ i, i < features.shape0 → workerOf i < resolveThreads hw n_threads) :
    ∃ out, rf.leaf_ids features ids n_threads hw workerOf tis =
        (out, .ok (((List.range features.shape0).map
            (sampleCount rf features (resolveIndices tis rf.graph_.numRoots))).sum,
          features.shape0)) ∧
      (∀ i k, i < features.shape0 → k ∈ resolveIndices tis rf.graph_.numRoots →
        out.entry i k = (rf.leafOf (features.row i) k : ℤ)) ∧
      (∀ i k, i < features.shape0 → k ∉ resolveIndices tis rf.graph_.numRoots →
        out.entry i k = -1) ∧
      (tis = [] → resolveIndices tis rf.graph_.numRoots = List.range rf.graph_.numRoots) ∧
      avgOf (((List.range features.shape0).map
          (sampleCount rf features (resolveIndices tis rf.graph_.numRoots))).sum,
        features.shape0) =
        (((List.range features.shape0).map
            (sampleCount rf features (resolveIndices tis rf.graph_.numRoots))).sum : ℚ) /
          (features.shape0 : ℚ) := by
  have hwalk : ∀ i, i < features.shape0 →
      ∀ k ∈ resolveIndices tis rf.graph_.numRoots,
        (rf.walkResult (features.row i) k).isSome :=
    fun i _ k _ => walkResult_isSome_of_wf rf (features.row i) k hwf
  have hentries := leaf_ids_entries rf features ids n_threads hw workerOf tis
    h0 h1 h2 htis hwalk hworker
  refine ⟨(rf.leaf_ids features ids n_threads hw workerOf tis).1, ?_, ?_, ?_, ?_, rfl⟩
  · rw [leaf_ids_eq rf features ids n_threads hw workerOf tis h0 h1 h2 htis hwalk hworker]
  · intro i k hi hk
    rw [hentries i k, if_pos ⟨hi, hk⟩]
  · intro i k hi hk
    rw [hentries i k, if_neg (fun hpair => hk hpair.2)]
  · intro he
    subst he
    rfl

/-- C2 witness: leaf_ids on the concrete forest, eight samples, a matrix
prefilled with junk, empty tree-index list, two workers. -/
theorem C2_leaf_ids_witness :
    ∃ out, exRF.leaf_ids exFeat ⟨8, 1, fun _ _ => 5⟩ 2 0 (fun _ => 0) [] =
        (out, .ok (((List.range (8 : ℕ)).map
            (sampleCount exRF exFeat (resolveIndices [] exRF.graph_.numRoots))).sum, 8)) ∧
      (∀ i k, i < (8 : ℕ) → k ∈ resolveIndices [] exRF.graph_.numRoots →
        out.entry i k = (exRF.leafOf (exFeat.row i) k : ℤ)) ∧
      (∀ i k, i < (8 : ℕ) → k ∉ resolveIndices [] exRF.graph_.numRoots →
        out.entry i k = -1) ∧
      (([] : List ℕ) = [] → resolveIndices [] exRF.graph_.numRoots =
        List.range exRF.graph_.numRoots) ∧
      avgOf (((List.range (8 : ℕ)).map
          (sampleCount exRF exFeat (resolveIndices [] exRF.graph_.numRoots))).sum, 8) =
        (((List.range (8 : ℕ)).map
            (sampleCount exRF exFeat (resolveIndices [] exRF.graph_.numRoots))).sum : ℚ) /
          ((8 : ℕ) : ℚ) :=
  C2_leaf_ids exRF exFeat ⟨8, 1, fun _ _ => 5⟩ 2 0 (fun _ => 0) []
    (WFForest_of_wfB exRF (by decide)) rfl rfl rfl (by decide) (by decide)

/-- C8: two leaf_ids runs that differ only in the worker-count arguments
(thread request, hardware concurrency, item-to-worker assignment) return
identical matrices and identical comparison averages, for every pair of
worker configurations that cover the samples. -/
theorem C8_worker_independence {F A : Type} (rf : RandomForest F A) (features : Mat F)
    (ids : Mat ℤ) (tis : List ℕ) (t1 t2 : ℤ) (hw1 hw2 : ℕ) (w1 w2 : ℕ → ℕ)
    (hb1 : ∀ i, i < features.shape0 → w1 i < resolveThreads hw1 t1)
    (hb2 : ∀ i, i < features.shape0 → w2 i < resolveThreads hw2 t2) :
    rf.leaf_ids features ids t1 hw1 w1 tis = rf.leaf_ids features ids t2 hw2 w2 tis := by
  rw [RandomForest.leaf_ids, RandomForest.leaf_ids]
  by_cases c0 : features.shape0 ≠ ids.shape0
  · rw [if_pos c0, if_pos c0]
  · rw [if_neg c0, if_neg c0]
    by_cases c1 : features.shape1 ≠ rf.problem_spec_.num_features_
    · rw [if_pos c1, if_pos c1]
    · rw [if_neg c1, if_neg c1]
      by_cases c2 : ids.shape1 ≠ rf.graph_.numRoots
      · rw [if_pos c2, if_pos c2]
      · rw [if_neg c2, if_neg c2]
        by_cases c3 : ¬ (∀ i ∈ toSortedSet tis, i < rf.graph_.numRoots)
        · rw [if_pos c3, if_pos c3]
        · rw [if_neg c3, if_neg c3]
          dsimp only
          rw [not_not] at c0 c1 c2
          rw [runItems_eq_samplesLoop rf features (resolveIndices tis rf.graph_.numRoots)
            (List.range features.shape0) (ids.fill (-1)) c0 c1 c2
            (fun i hi => List.mem_range.1 hi)]
          have hlen := samplesLoop_length rf features (resolveIndices tis rf.graph_.numRoots)
            (List.range features.shape0) (ids.fill (-1))
          rcases hs : rf.samplesLoop features (resolveIndices tis rf.graph_.numRoots)
            (List.range features.shape0) (ids.fill (-1)) with ⟨out, st⟩
          cases st with
          | error e => rfl
          | ok cs =>
            dsimp only
            have hl := hlen cs
            rw [hs] at hl
            have hl2 : cs.length = features.shape0 := by
              rw [hl rfl, List.length_range]
            rw [workerSum_eq _ _ _ (fun i hi => hb1 i (by omega)),
              workerSum_eq _ _ _ (fun i hi => hb2 i (by omega))]

/-- C8 witness: one worker against three workers on the concrete data. -/
theorem C8_worker_independence_witness :
    exRF.leaf_ids exFeat ⟨8, 1, fun _ _ => 5⟩ 1 1 (fun _ => 0) [] =
      exRF.leaf_ids exFeat ⟨8, 1, fun _ _ => 5⟩ 3 1 (fun i => i % 3) [] :=
  C8_worker_independence exRF exFeat ⟨8, 1, fun _ _ => 5⟩ [] 1 3 1 1
    (fun _ => 0) (fun i => i % 3) (by decide) (by decide)

/-- C10 counterexample: a zero-row call with a zero-row id matrix of
tree-count columns and (vacuously) valid tree indices is still rejected
when its feature-column count differs from the trained feature count, so
not every such call passes the precondition checks. -/
theorem C10_counterexample :
    (exRF.leaf_ids ⟨0, 3, fun _ _ => 0⟩ ⟨0, 1, fun _ _ => 0⟩ 1 1 (fun _ => 0) []).2 =
      .error "RandomForest::leaf_ids(): Number of features in prediction differs from training." := by
  decide

/-- C10 (amended with the matching feature-column count): a zero-row call
passes every precondition check — an empty sample set is not rejected —
and returns the formal quotient of a zero comparison total by the zero
sample count: the final division is not guarded against the zero
divisor. -/
theorem C10_zero_rows {F A : Type} (rf : RandomForest F A) (features : Mat F)
    (ids : Mat ℤ) (t : ℤ) (hw : ℕ) (workerOf : ℕ → ℕ) (tis : List ℕ)
    (hz : features.shape0 = 0) (hz2 : ids.shape0 = 0)
    (h1 : features.shape1 = rf.problem_spec_.num_features_)
    (h2 : ids.shape1 = rf.graph_.numRoots)
    (htis : ∀ j ∈ tis, j < rf.graph_.numRoots) :
    (rf.leaf_ids features ids t hw workerOf tis).2 = .ok (0, 0) ∧
    avgOf (0, 0) = (0 : ℚ) / (0 : ℚ) := by
  constructor
  · rw [leaf_ids_eq rf features ids t hw workerOf tis (by omega) h1 h2 htis
      (fun i hi => by omega) (fun i hi => by omega)]
    rw [hz]
    rfl
  · rw [avgOf]
    norm_num

/-- C10 witness: the zero-row call on the concrete forest with matching
feature count. -/
theorem C10_zero_rows_witness :
    (exRF.leaf_ids ⟨0, 2, fun _ _ => 0⟩ ⟨0, 1, fun _ _ => 7⟩ 1 1 (fun _ => 0) []).2 =
        .ok (0, 0) ∧
      avgOf (0, 0) = (0 : ℚ) / (0 : ℚ) :=
  C10_zero_rows exRF ⟨0, 2, fun _ _ => 0⟩ ⟨0, 1, fun _ _ => 7⟩ 1 1 (fun _ => 0) []
    rfl rfl rfl rfl (by decide)

/-! Facts about the response gathering of predict_proba. -/

theorem mapM_eq_map {α β : Type} [Inhabited β] (f : α → Option β) (l : List α)
    (h : ∀ a ∈ l, (f a).isSome) :
    l.mapM f = some (l.map (fun a => (f a).getD default)) := by
  induction l with
  | nil => rfl
  | cons a l ih =>
    obtain ⟨v, hv⟩ := Option.isSome_iff_exists.1 (h a (List.mem_cons_self _ _))
    have h2 : (a :: l).mapM f = (l.mapM f).bind (fun bs => some (v :: bs)) := by
      rw [List.mapM_cons, hv]
      rfl
    rw [h2, ih (fun a2 ha2 => h a2 (List.mem_cons_of_mem _ ha2))]
    simp [hv]

theorem gatherResponses_eq {F A : Type} [Inhabited A] (rf : RandomForest F A)
    (idsM : Mat ℤ) (actual : List ℕ) (row : List F) (i : ℕ)
    (hentry : ∀ k ∈ actual, idsM.entry i k = (rf.leafOf row k : ℤ))
    (hresp : ∀ k ∈ actual, (rf.node_responses_.get (rf.leafOf row k)).isSome) :
    rf.gatherResponses idsM actual i = some (actual.map (rf.respOf row)) := by
  rw [RandomForest.gatherResponses]
  have hsome : ∀ k ∈ actual,
      (rf.node_responses_.get (idsM.entry i k).toNat).isSome := by
    intro k hk
    rw [hentry k hk, Int.toNat_natCast]
    exact hresp k hk
  rw [mapM_eq_map _ _ hsome]
  congr 1
  apply List.map_congr_left
  intro k hk
  rw [hentry k hk, Int.toNat_natCast]
  rfl

theorem setRow_shape0 {α : Type} [Inhabited α] (m : Mat α) (i : ℕ) (vals : List α) :
    (m.setRow i vals).shape0 = m.shape0 := rfl

theorem setRow_shape1 {α : Type} [Inhabited α] (m : Mat α) (i : ℕ) (vals : List α) :
    (m.setRow i vals).shape1 = m.shape1 := rfl

theorem gatherLoop_char {F A : Type} (rf : RandomForest F A) (acc : List A → List ℚ)
    (idsM : Mat ℤ) (actual : List ℕ) (items : List ℕ) (probs : Mat ℚ)
    (tr : ℕ → List A)
    (h : ∀ i ∈ items, rf.gatherResponses idsM actual i = some (tr i)) :
    (rf.gatherLoop acc idsM actual items probs).2 = .ok () ∧
    ∀ a b, (rf.gatherLoop acc idsM actual items probs).1.entry a b =
      if a ∈ items ∧ b < (acc (tr a)).length then (acc (tr a)).getD b default
      else probs.entry a b := by
  induction items generalizing probs with
  | nil =>
    constructor
    · rfl
    · intro a b
      simp [RandomForest.gatherLoop]
  | cons i rest ih =>
    have hi := h i (List.mem_cons_self _ _)
    have hloop : rf.gatherLoop acc idsM actual (i :: rest) probs =
        rf.gatherLoop acc idsM actual rest (probs.setRow i (acc (tr i))) := by
      rw [RandomForest.gatherLoop, hi]
    have ihx := ih (probs.setRow i (acc (tr i)))
      (fun i2 hi2 => h i2 (List.mem_cons_of_mem _ hi2))
    constructor
    · rw [hloop]
      exact ihx.1
    · intro a b
      rw [hloop, ihx.2 a b]
      by_cases ha1 : a ∈ rest
      · by_cases hb : b < (acc (tr a)).length
        · simp [ha1, hb, List.mem_cons]
        · have h8 : (probs.setRow i (acc (tr i))).entry a b = probs.entry a b := by
            rw [Mat.setRow]
            dsimp only
            rw [if_neg]
            rintro ⟨rfl, hb2⟩
            exact hb hb2
          simp [hb, h8]
      · by_cases ha2 : a = i
        · subst ha2
          by_cases hb : b < (acc (tr a)).length
          · simp [ha1, hb, Mat.setRow, List.mem_cons]
          · have h8 : (probs.setRow a (acc (tr a))).entry a b = probs.entry a b := by
              rw [Mat.setRow]
              dsimp only
              rw [if_neg]
              rintro ⟨h9, hb2⟩
              exact hb hb2
            simp [ha1, hb, h8]
        · have h7 : a ∉ (i :: rest) := by
            simp [ha1, ha2]
          have h8 : (probs.setRow i (acc (tr i))).entry a b = probs.entry a b := by
            rw [Mat.setRow]
            dsimp only
            rw [if_neg]
            rintro ⟨rfl, h9⟩
            exact ha2 rfl
          simp [ha1, h7, h8]

theorem gatherLoop_shape {F A : Type} (rf : RandomForest F A) (acc : List A → List ℚ)
    (idsM : Mat ℤ) (actual : List ℕ) (items : List ℕ) (probs : Mat ℚ) :
    (rf.gatherLoop acc idsM actual items probs).1.shape0 = probs.shape0 ∧
    (rf.gatherLoop acc idsM actual items probs).1.shape1 = probs.shape1 := by
  induction items generalizing probs with
  | nil => exact ⟨rfl, rfl⟩
  | cons i rest ih =>
    rw [RandomForest.gatherLoop]
    cases hg : rf.gatherResponses idsM actual i with
    | none => exact ⟨rfl, rfl⟩
    | some tree_results => exact ih (probs.setRow i (acc tree_results))

/-- Master characterization of predict_proba on valid inputs: the checks
pass, the returned pair is forwarded unchanged from leaf_ids over the
resolved tree set, and row i of the probability matrix is the output of
one accumulator invocation on the responses of the trees of the resolved
set in ascending order. -/
theorem predict_proba_char {F A : Type} [Inhabited A] (rf : RandomForest F A)
    (acc : List A → List ℚ) (features : Mat F) (probs : Mat ℚ)
    (n_threads : ℤ) (hw : ℕ) (workerOf : ℕ → ℕ) (tis : List ℕ)
    (hwf : rf.WFForest)
    (h0 : features.shape0 = probs.shape0)
    (h1 : features.shape1 = rf.problem_spec_.num_features_)
    (h3 : probs.shape1 = rf.problem_spec_.num_classes_)
    (htis : ∀ j ∈ tis, j < rf.graph_.numRoots)
    (hworker : ∀ i, i < features.shape0 → workerOf i < resolveThreads hw n_threads) :
    (rf.predict_proba acc features probs n_threads hw workerOf tis).2 =
      .ok (((List.range features.shape0).map
          (sampleCount rf features (resolveIndices tis rf.graph_.numRoots))).sum,
        features.shape0) ∧
    ∀ a b, (rf.predict_proba acc features probs n_threads hw workerOf tis).1.entry a b =
      if a < features.shape0 ∧ b < (acc (rf.treeResponses features tis a)).length
      then (acc (rf.treeResponses features tis a)).getD b default
      else probs.entry a b := by
  have hstis : ∀ i ∈ toSortedSet tis, i < rf.graph_.numRoots := by
    intro i hi
    exact htis i ((mem_toSortedSet tis i).1 hi)
  have hRlt : ∀ k ∈ resolveIndices tis rf.graph_.numRoots, k < rf.graph_.numRoots :=
    mem_resolveIndices tis rf.graph_.numRoots hstis
  have hwalk : ∀ i, i < features.shape0 →
      ∀ k ∈ resolveIndices (resolveIndices tis rf.graph_.numRoots) rf.graph_.numRoots,
        (rf.walkResult (features.row i) k).isSome :=
    fun i _ k _ => walkResult_isSome_of_wf rf (features.row i) k hwf
  have hids := leaf_ids_eq rf features
    ⟨features.shape0, rf.graph_.numRoots, fun _ _ => 0⟩ n_threads hw workerOf
    (resolveIndices tis rf.graph_.numRoots) rfl h1 rfl hRlt hwalk hworker
  rw [resolveIndices_idem] at hids
  have hentry := samplesLoop_char rf features (resolveIndices tis rf.graph_.numRoots)
    (List.range features.shape0)
    ((⟨features.shape0, rf.graph_.numRoots, fun _ _ => 0⟩ : Mat ℤ).fill (-1))
    (fun i hi k hk =>
      walkResult_isSome_of_wf rf (features.row i) k hwf)
  have hgattr : ∀ i ∈ List.range features.shape0,
      rf.gatherResponses
        (rf.samplesLoop features (resolveIndices tis rf.graph_.numRoots)
          (List.range features.shape0)
          ((⟨features.shape0, rf.graph_.numRoots, fun _ _ => 0⟩ : Mat ℤ).fill (-1))).1
        (resolveIndices tis rf.graph_.numRoots) i =
        some (rf.treeResponses features tis i) := by
    intro i hi
    apply gatherResponses_eq rf _ _ (features.row i) i
    · intro k hk
      rw [hentry.2 i k, if_pos ⟨hi, hk⟩]
    · intro k hk
      exact respOf_isSome rf (features.row i) k hwf (hRlt k hk)
  have hgather := gatherLoop_char rf acc
    (rf.samplesLoop features (resolveIndices tis rf.graph_.numRoots)
      (List.range features.shape0)
      ((⟨features.shape0, rf.graph_.numRoots, fun _ _ => 0⟩ : Mat ℤ).fill (-1))).1
    (resolveIndices tis rf.graph_.numRoots) (List.range features.shape0) probs
    (rf.treeResponses features tis) hgattr
  rw [RandomForest.predict_proba, if_neg (not_not_intro h0), if_neg (not_not_intro h1),
    if_neg (not_not_intro h3), if_neg (not_not_intro hstis)]
  dsimp only
  rw [hids]
  dsimp only
  rcases hg : rf.gatherLoop acc
    (rf.samplesLoop features (resolveIndices tis rf.graph_.numRoots)
      (List.range features.shape0)
      ((⟨features.shape0, rf.graph_.numRoots, fun _ _ => 0⟩ : Mat ℤ).fill (-1))).1
    (resolveIndices tis rf.graph_.numRoots) (List.range features.shape0) probs
    with ⟨probs1, st⟩
  have hg1 := hgather.1
  rw [hg] at hg1
  dsimp only at hg1
  subst hg1
  dsimp only
  constructor
  · rfl
  · intro a b
    have hg2 := hgather.2 a b
    rw [hg] at hg2
    dsimp only at hg2
    rw [hg2]
    simp only [List.mem_range]

/-- C3: predict_proba computes the leaf-id matrix with the same resolved
tree set that response gathering uses (the returned pair equals the
leaf_ids pair over that resolved set), the resolved set is strictly
ascending, the gathered list is exactly the node responses of the reached
leaves over that set in that order, and each sample's probability row is
the output of a single accumulator invocation on that list. -/
theorem C3_predict_proba {F A : Type} [Inhabited A] (rf : RandomForest F A)
    (acc : List A → List ℚ) (features : Mat F) (probs : Mat ℚ)
    (n_threads : ℤ) (hw : ℕ) (workerOf : ℕ → ℕ) (tis : List ℕ)
    (hwf : rf.WFForest)
    (h0 : features.shape0 = probs.shape0)
    (h1 : features.shape1 = rf.problem_spec_.num_features_)
    (h3 : probs.shape1 = rf.problem_spec_.num_classes_)
    (htis : ∀ j ∈ tis, j < rf.graph_.numRoots)
    (hworker : ∀ i, i < features.shape0 → workerOf i < resolveThreads hw n_threads) :
    ∃ p, (rf.predict_proba acc features probs n_threads hw workerOf tis).2 = .ok p ∧
      (rf.leaf_ids features ⟨features.shape0, rf.graph_.numRoots, fun _ _ => 0⟩
        n_threads hw workerOf (resolveIndices tis rf.graph_.numRoots)).2 = .ok p ∧
      List.Sorted (· < ·) (resolveIndices tis rf.graph_.numRoots) ∧
      (∀ i, i < features.shape0 →
        rf.treeResponses features tis i =
          (resolveIndices tis rf.graph_.numRoots).map
            (fun k => (rf.node_responses_.get (rf.leafOf (features.row i) k)).getD default)) ∧
      ∀ i, i < features.shape0 →
        ∀ b, b < (acc (rf.treeResponses features tis i)).length →
          (rf.predict_proba acc features probs n_threads hw workerOf tis).1.entry i b =
            (acc (rf.treeResponses features tis i)).getD b default := by
  have hchar := predict_proba_char rf acc features probs n_threads hw workerOf tis
    hwf h0 h1 h3 htis hworker
  have hstis : ∀ i ∈ toSortedSet tis, i < rf.graph_.numRoots := by
    intro i hi
    exact htis i ((mem_toSortedSet tis i).1 hi)
  have hRlt : ∀ k ∈ resolveIndices tis rf.graph_.numRoots, k < rf.graph_.numRoots :=
    mem_resolveIndices tis rf.graph_.numRoots hstis
  have hids := leaf_ids_eq rf features
    ⟨features.shape0, rf.graph_.numRoots, fun _ _ => 0⟩ n_threads hw workerOf
    (resolveIndices tis rf.graph_.numRoots) rfl h1 rfl hRlt
    (fun i _ k _ => walkResult_isSome_of_wf rf (features.row i) k hwf) hworker
  rw [resolveIndices_idem] at hids
  refine ⟨_, hchar.1, ?_, resolveIndices_sorted tis rf.graph_.numRoots, ?_, ?_⟩
  · rw [hids]
  · intro i _
    rfl
  · intro i hi b hb
    rw [hchar.2 i b, if_pos ⟨hi, hb⟩]

/-- C3 witness: predict_proba on the concrete forest and data, explicit
tree list. -/
theorem C3_predict_proba_witness :
    ∃ p, (exRF.predict_proba exAcc exFeat ⟨8, 4, fun _ _ => 0⟩ 2 0 (fun _ => 0) [0]).2 =
        .ok p ∧
      (exRF.leaf_ids exFeat ⟨8, exRF.graph_.numRoots, fun _ _ => 0⟩
        2 0 (fun _ => 0) (resolveIndices [0] exRF.graph_.numRoots)).2 = .ok p ∧
      List.Sorted (· < ·) (resolveIndices [0] exRF.graph_.numRoots) ∧
      (∀ i, i < (8 : ℕ) →
        exRF.treeResponses exFeat [0] i =
          (resolveIndices [0] exRF.graph_.numRoots).map
            (fun k => (exRF.node_responses_.get (exRF.leafOf (exFeat.row i) k)).getD default)) ∧
      ∀ i, i < (8 : ℕ) →
        ∀ b, b < (exAcc (exRF.treeResponses exFeat [0] i)).length →
          (exRF.predict_proba exAcc exFeat ⟨8, 4, fun _ _ => 0⟩ 2 0 (fun _ => 0) [0]).1.entry i b =
            (exAcc (exRF.treeResponses exFeat [0] i)).getD b default :=
  C3_predict_proba exRF exAcc exFeat ⟨8, 4, fun _ _ => 0⟩ 2 0 (fun _ => 0) [0]
    (WFForest_of_wfB exRF (by decide)) rfl rfl rfl (by decide) (by decide)

/-! The arg-max scan of predict. -/

theorem argmaxGo_spec : ∀ (ys : List ℚ) (best : ℚ) (bi cur : ℕ),
    (argmaxGo best bi cur ys = bi ∧ ∀ b, b < ys.length → ys.getD b 0 ≤ best) ∨
    (∃ j, j < ys.length ∧ argmaxGo best bi cur ys = cur + j ∧ best < ys.getD j 0 ∧
      (∀ b, b < ys.length → ys.getD b 0 ≤ ys.getD j 0) ∧
      (∀ b, b < j → ys.getD b 0 < ys.getD j 0)) := by
  intro ys
  induction ys with
  | nil =>
    intro best bi cur
    left
    exact ⟨rfl, fun b hb => absurd hb (by simp)⟩
  | cons y ys ih =>
    intro best bi cur
    by_cases hy : best < y
    · rw [argmaxGo, if_pos hy]
      rcases ih y cur (cur + 1) with ⟨h1, h2⟩ | ⟨j, hj, h1, h2, h3, h4⟩
      · right
        refine ⟨0, by simp, by rw [h1]; omega, by simpa using hy, ?_,
          fun b hb => absurd hb (by omega)⟩
        intro b hb
        cases b with
        | zero => simp
        | succ b2 =>
          rw [List.getD_cons_succ, List.getD_cons_zero]
          exact h2 b2 (by simpa using hb)
      · right
        refine ⟨j + 1, by simpa using hj, by rw [h1]; omega, ?_, ?_, ?_⟩
        · rw [List.getD_cons_succ]
          exact lt_trans hy h2
        · intro b hb
          cases b with
          | zero =>
            rw [List.getD_cons_succ, List.getD_cons_zero]
            exact le_of_lt h2
          | succ b2 =>
            rw [List.getD_cons_succ, List.getD_cons_succ]
            exact h3 b2 (by simpa using hb)
        · intro b hb
          cases b with
          | zero =>
            rw [List.getD_cons_succ, List.getD_cons_zero]
            exact h2
          | succ b2 =>
            rw [List.getD_cons_succ, List.getD_cons_succ]
            exact h4 b2 (by omega)
    · rw [argmaxGo, if_neg hy]
      push_neg at hy
      rcases ih best bi (cur + 1) with ⟨h1, h2⟩ | ⟨j, hj, h1, h2, h3, h4⟩
      · left
        refine ⟨h1, ?_⟩
        intro b hb
        cases b with
        | zero => simpa using hy
        | succ b2 =>
          rw [List.getD_cons_succ]
          exact h2 b2 (by simpa using hb)
      · right
        refine ⟨j + 1, by simpa using hj, by rw [h1]; omega, ?_, ?_, ?_⟩
        · rw [List.getD_cons_succ]
          exact h2
        · intro b hb
          cases b with
          | zero =>
            rw [List.getD_cons_succ, List.getD_cons_zero]
            exact le_of_lt (lt_of_le_of_lt hy h2)
          | succ b2 =>
            rw [List.getD_cons_succ, List.getD_cons_succ]
            exact h3 b2 (by simpa using hb)
        · intro b hb
          cases b with
          | zero =>
            rw [List.getD_cons_succ, List.getD_cons_zero]
            exact lt_of_le_of_lt hy h2
          | succ b2 =>
            rw [List.getD_cons_succ, List.getD_cons_succ]
            exact h4 b2 (by omega)

/-- std::max_element semantics: the scan returns an in-range index whose
value dominates the whole row and strictly dominates every earlier
entry (the first maximum wins a tie). -/
theorem argmaxIdx_spec (l : List ℚ) (hne : l ≠ []) :
    argmaxIdx l < l.length ∧
    (∀ b, b < l.length → l.getD b 0 ≤ l.getD (argmaxIdx l) 0) ∧
    (∀ b, b < argmaxIdx l → l.getD b 0 < l.getD (argmaxIdx l) 0) := by
  cases l with
  | nil => exact absurd rfl hne
  | cons x xs =>
    rw [argmaxIdx]
    rcases argmaxGo_spec xs x 0 1 with ⟨h1, h2⟩ | ⟨j, hj, h1, h2, h3, h4⟩
    · rw [h1]
      refine ⟨by simp, ?_, fun b hb => absurd hb (by omega)⟩
      intro b hb
      cases b with
      | zero => simp
      | succ b2 =>
        rw [List.getD_cons_succ, List.getD_cons_zero]
        exact h2 b2 (by simpa using hb)
    · rw [h1]
      have hsucc : 1 + j = j + 1 := by omega
      rw [hsucc]
      refine ⟨by simpa using hj, ?_, ?_⟩
      · intro b hb
        cases b with
        | zero =>
          rw [List.getD_cons_succ, List.getD_cons_zero]
          exact le_of_lt h2
        | succ b2 =>
          rw [List.getD_cons_succ, List.getD_cons_succ]
          exact h3 b2 (by simpa using hb)
      · intro b hb
        cases b with
        | zero =>
          rw [List.getD_cons_succ, List.getD_cons_zero]
          exact h2
        | succ b2 =>
          rw [List.getD_cons_succ, List.getD_cons_succ]
          exact h4 b2 (by omega)

theorem map_range_getD {α : Type} [Inhabited α] (l : List α) :
    (List.range l.length).map (fun b => l.getD b default) = l := by
  apply List.ext_getElem
  · simp
  · intro i h1 h2
    simp [List.getD_eq_getElem?_getD, List.getElem?_eq_getElem h2]

theorem predict_proba_shape {F A : Type} (rf : RandomForest F A) (acc : List A → List ℚ)
    (features : Mat F) (probs : Mat ℚ) (n_threads : ℤ) (hw : ℕ) (workerOf : ℕ → ℕ)
    (tis : List ℕ) :
    (rf.predict_proba acc features probs n_threads hw workerOf tis).1.shape0 = probs.shape0 ∧
    (rf.predict_proba acc features probs n_threads hw workerOf tis).1.shape1 = probs.shape1 := by
  rw [RandomForest.predict_proba]
  by_cases c0 : features.shape0 ≠ probs.shape0
  · rw [if_pos c0]
    exact ⟨rfl, rfl⟩
  · rw [if_neg c0]
    by_cases c1 : features.shape1 ≠ rf.problem_spec_.num_features_
    · rw [if_pos c1]
      exact ⟨rfl, rfl⟩
    · rw [if_neg c1]
      by_cases c2 : probs.shape1 ≠ rf.problem_spec_.num_classes_
      · rw [if_pos c2]
        exact ⟨rfl, rfl⟩
      · rw [if_neg c2]
        by_cases c3 : ¬ (∀ i ∈ toSortedSet tis, i < rf.graph_.numRoots)
        · rw [if_pos c3]
          exact ⟨rfl, rfl⟩
        · rw [if_neg c3]
          dsimp only
          rcases hl : rf.leaf_ids features
            ⟨features.shape0, rf.graph_.numRoots, fun _ _ => 0⟩ n_threads hw workerOf
            (resolveIndices tis rf.graph_.numRoots) with ⟨idsM, st⟩
          cases st with
          | error e => exact ⟨rfl, rfl⟩
          | ok p =>
            dsimp only
            have hsh := gatherLoop_shape rf acc idsM
              (resolveIndices tis rf.graph_.numRoots) (List.range features.shape0) probs
            rcases hg : rf.gatherLoop acc idsM (resolveIndices tis rf.graph_.numRoots)
              (List.range features.shape0) probs with ⟨probs1, st2⟩
            rw [hg] at hsh
            cases st2 <;> exact hsh

/-- Master characterization of predict on valid inputs: the label written
for sample i is the distinct label at the arg-max of the accumulator
output for that sample, and the comparison pair is forwarded from
leaf_ids through predict_proba. -/
theorem predict_char {F A : Type} [Inhabited A] (rf : RandomForest F A)
    (acc : List A → List ℚ) (features : Mat F) (labels : List ℤ)
    (n_threads : ℤ) (hw : ℕ) (workerOf : ℕ → ℕ) (tis : List ℕ)
    (hwf : rf.WFForest)
    (h0 : features.shape0 = labels.length)
    (h1 : features.shape1 = rf.problem_spec_.num_features_)
    (htis : ∀ j ∈ tis, j < rf.graph_.numRoots)
    (hworker : ∀ i, i < features.shape0 → workerOf i < resolveThreads hw n_threads)
    (hAccLen : ∀ rs, (acc rs).length = rf.problem_spec_.num_classes_) :
    rf.predict acc features labels n_threads hw workerOf tis =
      ((List.range features.shape0).map (fun i =>
        rf.problem_spec_.distinct_classes_.getD
          (argmaxIdx (acc (rf.treeResponses features tis i))) 0),
        .ok (((List.range features.shape0).map
            (sampleCount rf features (resolveIndices tis rf.graph_.numRoots))).sum,
          features.shape0)) := by
  have hchar := predict_proba_char rf acc features
    ⟨features.shape0, rf.problem_spec_.num_classes_, fun _ _ => 0⟩
    n_threads hw workerOf tis hwf rfl h1 rfl htis hworker
  have hshape := predict_proba_shape rf acc features
    ⟨features.shape0, rf.problem_spec_.num_classes_, fun _ _ => 0⟩
    n_threads hw workerOf tis
  rw [RandomForest.predict, if_neg (not_not_intro h0), if_neg (not_not_intro h1)]
  dsimp only
  rcases hp : rf.predict_proba acc features
    ⟨features.shape0, rf.problem_spec_.num_classes_, fun _ _ => 0⟩
    n_threads hw workerOf tis with ⟨probsM, st⟩
  have h2 := hchar.1
  rw [hp] at h2
  dsimp only at h2
  subst h2
  dsimp only
  have hrow : ∀ i ∈ List.range features.shape0,
      probsM.row i = acc (rf.treeResponses features tis i) := by
    intro i hi
    have hi2 := List.mem_range.1 hi
    have hsh1 : probsM.shape1 = rf.problem_spec_.num_classes_ := by
      have := hshape.2
      rw [hp] at this
      exact this
    rw [Mat.row, hsh1, show rf.problem_spec_.num_classes_ =
      (acc (rf.treeResponses features tis i)).length from (hAccLen _).symm]
    have hcongr : ∀ b ∈ List.range (acc (rf.treeResponses features tis i)).length,
        probsM.entry i b = (acc (rf.treeResponses features tis i)).getD b default := by
      intro b hb
      have h3 := hchar.2 i b
      rw [hp] at h3
      dsimp only at h3
      rw [h3, if_pos ⟨hi2, List.mem_range.1 hb⟩]
    rw [List.map_congr_left hcongr, map_range_getD]
  congr 1
  apply List.map_congr_left
  intro i hi
  rw [hrow i hi]

/-- C4: each output label of predict is the distinct-label entry at the
stable arg-max of the sample's probability row: the chosen class index is
in range, its probability dominates the whole row, and it strictly
dominates every earlier class (first maximum on ties). -/
theorem C4_predict {F A : Type} [Inhabited A] (rf : RandomForest F A)
    (acc : List A → List ℚ) (features : Mat F) (labels : List ℤ)
    (n_threads : ℤ) (hw : ℕ) (workerOf : ℕ → ℕ) (tis : List ℕ)
    (hwf : rf.WFForest)
    (h0 : features.shape0 = labels.length)
    (h1 : features.shape1 = rf.problem_spec_.num_features_)
    (htis : ∀ j ∈ tis, j < rf.graph_.numRoots)
    (hworker : ∀ i, i < features.shape0 → workerOf i < resolveThreads hw n_threads)
    (hAccLen : ∀ rs, (acc rs).length = rf.problem_spec_.num_classes_)
    (hnc : 0 < rf.problem_spec_.num_classes_) :
    ∃ out p, rf.predict acc features labels n_threads hw workerOf tis = (out, .ok p) ∧
      out.length = features.shape0 ∧
      ∀ i, i < features.shape0 → ∃ j, j < rf.problem_spec_.num_classes_ ∧
        out.getD i 0 = rf.problem_spec_.distinct_classes_.getD j 0 ∧
        (∀ b, b < rf.problem_spec_.num_classes_ →
          (acc (rf.treeResponses features tis i)).getD b 0 ≤
            (acc (rf.treeResponses features tis i)).getD j 0) ∧
        (∀ b, b < j →
          (acc (rf.treeResponses features tis i)).getD b 0 <
            (acc (rf.treeResponses features tis i)).getD j 0) := by
  rw [predict_char rf acc features labels n_threads hw workerOf tis hwf h0 h1 htis
    hworker hAccLen]
  refine ⟨_, _, rfl, by simp, ?_⟩
  intro i hi
  have hlen : (acc (rf.treeResponses features tis i)).length =
      rf.problem_spec_.num_classes_ := hAccLen _
  have hne : acc (rf.treeResponses features tis i) ≠ [] := by
    intro he
    rw [he] at hlen
    simp at hlen
    omega
  have hspec := argmaxIdx_spec (acc (rf.treeResponses features tis i)) hne
  refine ⟨argmaxIdx (acc (rf.treeResponses features tis i)), by omega, ?_, ?_, hspec.2.2⟩
  · rw [List.getD_eq_getElem?_getD, List.getElem?_map, List.getElem?_range hi]
    rfl
  · intro b hb
    exact hspec.2.1 b (by omega)

/-- C4 witness: predict on the concrete forest and eight samples. -/
theorem C4_predict_witness :
    ∃ out p, exRF.predict exAcc exFeat [9, 9, 9, 9, 9, 9, 9, 9] 2 0 (fun _ => 0) []
        = (out, .ok p) ∧
      out.length = (8 : ℕ) ∧
      ∀ i, i < (8 : ℕ) → ∃ j, j < exRF.problem_spec_.num_classes_ ∧
        out.getD i 0 = exRF.problem_spec_.distinct_classes_.getD j 0 ∧
        (∀ b, b < exRF.problem_spec_.num_classes_ →
          (exAcc (exRF.treeResponses exFeat [] i)).getD b 0 ≤
            (exAcc (exRF.treeResponses exFeat [] i)).getD j 0) ∧
        (∀ b, b < j →
          (exAcc (exRF.treeResponses exFeat [] i)).getD b 0 <
            (exAcc (exRF.treeResponses exFeat [] i)).getD j 0) :=
  C4_predict exRF exAcc exFeat [9, 9, 9, 9, 9, 9, 9, 9] 2 0 (fun _ => 0) []
    (WFForest_of_wfB exRF (by decide)) rfl rfl (by decide) (by decide)
    (fun rs => rfl) (by decide)

/-- C6: on the same forest, features and tree-index list, the three public
prediction entry points return the very same comparison pair — hence the
same average (its avgOf quotient). -/
theorem C6_same_average {F A : Type} [Inhabited A] (rf : RandomForest F A)
    (acc : List A → List ℚ) (features : Mat F) (ids : Mat ℤ) (probs : Mat ℚ)
    (labels : List ℤ) (n_threads : ℤ) (hw : ℕ) (workerOf : ℕ → ℕ) (tis : List ℕ)
    (hwf : rf.WFForest)
    (h0i : features.shape0 = ids.shape0)
    (h2i : ids.shape1 = rf.graph_.numRoots)
    (h0p : features.shape0 = probs.shape0)
    (h3p : probs.shape1 = rf.problem_spec_.num_classes_)
    (h0l : features.shape0 = labels.length)
    (h1 : features.shape1 = rf.problem_spec_.num_features_)
    (htis : ∀ j ∈ tis, j < rf.graph_.numRoots)
    (hworker : ∀ i, i < features.shape0 → workerOf i < resolveThreads hw n_threads) :
    ∃ p, (rf.leaf_ids features ids n_threads hw workerOf tis).2 = .ok p ∧
      (rf.predict_proba acc features probs n_threads hw workerOf tis).2 = .ok p ∧
      (rf.predict acc features labels n_threads hw workerOf tis).2 = .ok p := by
  have hwalk : ∀ i, i < features.shape0 →
      ∀ k ∈ resolveIndices tis rf.graph_.numRoots,
        (rf.walkResult (features.row i) k).isSome :=
    fun i _ k _ => walkResult_isSome_of_wf rf (features.row i) k hwf
  refine ⟨(((List.range features.shape0).map
      (sampleCount rf features (resolveIndices tis rf.graph_.numRoots))).sum,
    features.shape0), ?_, ?_, ?_⟩
  · rw [leaf_ids_eq rf features ids n_threads hw workerOf tis h0i h1 h2i htis
      hwalk hworker]
  · exact (predict_proba_char rf acc features probs n_threads hw workerOf tis
      hwf h0p h1 h3p htis hworker).1
  · have hchar := predict_proba_char rf acc features
      ⟨features.shape0, rf.problem_spec_.num_classes_, fun _ _ => 0⟩
      n_threads hw workerOf tis hwf rfl h1 rfl htis hworker
    rw [RandomForest.predict, if_neg (not_not_intro h0l), if_neg (not_not_intro h1)]
    dsimp only
    rcases hp : rf.predict_proba acc features
      ⟨features.shape0, rf.problem_spec_.num_classes_, fun _ _ => 0⟩
      n_threads hw workerOf tis with ⟨probsM, st⟩
    have h2 := hchar.1
    rw [hp] at h2
    dsimp only at h2
    subst h2
    rfl

/-- C6 witness: the three entry points on the concrete forest and data. -/
theorem C6_same_average_witness :
    ∃ p, (exRF.leaf_ids exFeat ⟨8, 1, fun _ _ => 5⟩ 2 0 (fun _ => 0) [0]).2 = .ok p ∧
      (exRF.predict_proba exAcc exFeat ⟨8, 4, fun _ _ => 0⟩ 2 0 (fun _ => 0) [0]).2 =
        .ok p ∧
      (exRF.predict exAcc exFeat [9, 9, 9, 9, 9, 9, 9, 9] 2 0 (fun _ => 0) [0]).2 =
        .ok p :=
  C6_same_average exRF exAcc exFeat ⟨8, 1, fun _ _ => 5⟩ ⟨8, 4, fun _ _ => 0⟩
    [9, 9, 9, 9, 9, 9, 9, 9] 2 0 (fun _ => 0) [0]
    (WFForest_of_wfB exRF (by decide)) rfl rfl rfl rfl rfl rfl (by decide) (by decide)

theorem gatherLoop_error {F A : Type} (rf : RandomForest F A) (acc : List A → List ℚ)
    (idsM : Mat ℤ) (actual : List ℕ) (items : List ℕ) :
    ∀ (probs : Mat ℚ) (e : String),
      (rf.gatherLoop acc idsM actual items probs).2 = .error e → e = lookupFailMsg := by
  induction items with
  | nil =>
    intro probs e h
    cases h
  | cons i rest ih =>
    intro probs e h
    rw [RandomForest.gatherLoop] at h
    cases hg : rf.gatherResponses idsM actual i with
    | none =>
      rw [hg] at h
      dsimp only at h
      injection h with h2
      exact h2.symm
    | some tree_results =>
      rw [hg] at h
      dsimp only at h
      exact ih (probs.setRow i (acc tree_results)) e h

/-- C7: every public operation runs its precondition checks before any
computation or mutation: whenever merge fails its check the forest is
unchanged; whenever leaf_ids or predict_proba reports a precondition
message the caller's matrix is returned unchanged; and whenever predict
fails for any reason the label vector is unchanged. -/
theorem C7_fail_fast {F A : Type} (rf other : RandomForest F A)
    (acc : List A → List ℚ) (features : Mat F) (ids : Mat ℤ) (probs : Mat ℚ)
    (labels : List ℤ) (n_threads : ℤ) (hw : ℕ) (workerOf : ℕ → ℕ) (tis : List ℕ) :
    (∀ e, (rf.merge other).2 = .error e → (rf.merge other).1 = rf) ∧
    (∀ e, (rf.leaf_ids features ids n_threads hw workerOf tis).2 = .error e →
      e ∈ leafIdsCheckMsgs →
      (rf.leaf_ids features ids n_threads hw workerOf tis).1 = ids) ∧
    (∀ e, (rf.predict_proba acc features probs n_threads hw workerOf tis).2 = .error e →
      e ∈ predictProbaCheckMsgs →
      (rf.predict_proba acc features probs n_threads hw workerOf tis).1 = probs) ∧
    (∀ e, (rf.predict acc features labels n_threads hw workerOf tis).2 = .error e →
      (rf.predict acc features labels n_threads hw workerOf tis).1 = labels) := by
  refine ⟨?_, ?_, ?_, ?_⟩
  · intro e he
    rw [RandomForest.merge] at he ⊢
    by_cases hc : rf.problem_spec_ = other.problem_spec_
    · rw [if_pos hc] at he
      cases he
    · rw [if_neg hc]
  · intro e he hmem
    rw [RandomForest.leaf_ids] at he ⊢
    by_cases c0 : features.shape0 ≠ ids.shape0
    · rw [if_pos c0]
    · rw [if_neg c0] at he ⊢
      by_cases c1 : features.shape1 ≠ rf.problem_spec_.num_features_
      · rw [if_pos c1]
      · rw [if_neg c1] at he ⊢
        by_cases c2 : ids.shape1 ≠ rf.graph_.numRoots
        · rw [if_pos c2]
        · rw [if_neg c2] at he ⊢
          by_cases c3 : ¬ (∀ i ∈ toSortedSet tis, i < rf.graph_.numRoots)
          · rw [if_pos c3]
          · rw [if_neg c3] at he ⊢
            dsimp only at he ⊢
            rw [not_not] at c0 c1 c2
            rw [runItems_eq_samplesLoop rf features
              (resolveIndices tis rf.graph_.numRoots) (List.range features.shape0)
              (ids.fill (-1)) c0 c1 c2 (fun i hi => List.mem_range.1 hi)] at he ⊢
            rcases hs : rf.samplesLoop features (resolveIndices tis rf.graph_.numRoots)
              (List.range features.shape0) (ids.fill (-1)) with ⟨out, st⟩
            rw [hs] at he
            cases st with
            | ok cs => cases he
            | error e2 =>
              dsimp only at he
              injection he with h2
              subst h2
              have h3 := samplesLoop_error rf features
                (resolveIndices tis rf.graph_.numRoots) (List.range features.shape0)
                (ids.fill (-1)) e2
              rw [hs] at h3
              rw [h3 rfl] at hmem
              exact absurd hmem (by decide)
  · intro e he hmem
    rw [RandomForest.predict_proba] at he ⊢
    by_cases c0 : features.shape0 ≠ probs.shape0
    · rw [if_pos c0]
    · rw [if_neg c0] at he ⊢
      by_cases c1 : features.shape1 ≠ rf.problem_spec_.num_features_
      · rw [if_pos c1]
      · rw [if_neg c1] at he ⊢
        by_cases c2 : probs.shape1 ≠ rf.problem_spec_.num_classes_
        · rw [if_pos c2]
        · rw [if_neg c2] at he ⊢
          by_cases c3 : ¬ (∀ i ∈ toSortedSet tis, i < rf.graph_.numRoots)
          · rw [if_pos c3]
          · rw [if_neg c3] at he ⊢
            dsimp only at he ⊢
            rcases hl : rf.leaf_ids features
              ⟨features.shape0, rf.graph_.numRoots, fun _ _ => 0⟩ n_threads hw workerOf
              (resolveIndices tis rf.graph_.numRoots) with ⟨idsM, st⟩
            rw [hl] at he
            cases st with
            | error e2 => rfl
            | ok p =>
              dsimp only at he ⊢
              rcases hg : rf.gatherLoop acc idsM
                (resolveIndices tis rf.graph_.numRoots) (List.range features.shape0)
                probs with ⟨probs1, st2⟩
              rw [hg] at he
              cases st2 with
              | ok u => cases he
              | error e2 =>
                dsimp only at he
                injection he with h2
                subst h2
                have h3 := gatherLoop_error rf acc idsM
                  (resolveIndices tis rf.graph_.numRoots) (List.range features.shape0)
                  probs e2
                rw [hg] at h3
                rw [h3 rfl] at hmem
                exact absurd hmem (by decide)
  · intro e he
    rw [RandomForest.predict] at he ⊢
    by_cases c0 : features.shape0 ≠ labels.length
    · rw [if_pos c0]
    · rw [if_neg c0] at he ⊢
      by_cases c1 : features.shape1 ≠ rf.problem_spec_.num_features_
      · rw [if_pos c1]
      · rw [if_neg c1] at he ⊢
        dsimp only at he ⊢
        rcases hp : rf.predict_proba acc features
          ⟨features.shape0, rf.problem_spec_.num_classes_, fun _ _ => 0⟩ n_threads hw
          workerOf tis with ⟨probsM, st⟩
        rw [hp] at he
        cases st with
        | error e2 => rfl
        | ok p =>
          dsimp only at he
          cases he

/-- C7 witness: a predict call with mismatched label length leaves the
label vector unchanged. -/
theorem C7_fail_fast_witness :
    (exRF.predict exAcc exFeat [0] 1 1 (fun _ => 0) []).1 = [0] :=
  (C7_fail_fast exRF exRF exAcc exFeat ⟨8, 1, fun _ _ => 5⟩ ⟨8, 4, fun _ _ => 0⟩
    [0] 1 1 (fun _ => 0) []).2.2.2
    "RandomForest::predict(): Shape mismatch between features and labels." (by decide)

/-- C9 counterexample: two predict calls whose feature counts are wrong in
different ways (3 and 5 columns against a 2-feature specification) fail
with the very same error value, so the failure does not describe the
offending values. -/
theorem C9_counterexample :
    (exRF.predict exAcc ⟨1, 3, fun _ _ => 0⟩ [0] 1 1 (fun _ => 0) []).2 =
      (exRF.predict exAcc ⟨1, 5, fun _ _ => 0⟩ [0] 1 1 (fun _ => 0) []).2 ∧
    (exRF.predict exAcc ⟨1, 3, fun _ _ => 0⟩ [0] 1 1 (fun _ => 0) []).2 =
      .error "RandomForest::predict(): Number of features in prediction differs from training." := by
  constructor
  · rfl
  · rfl

/-- C9 (amended): each failed precondition produces a typed failure whose
message identifies which precondition failed (a fixed descriptive string
per check, all pairwise distinct), but the message does not carry the
offending values. -/
theorem C9_amended {F A : Type} (rf other : RandomForest F A)
    (acc : List A → List ℚ) (features : Mat F) (ids : Mat ℤ) (probs : Mat ℚ)
    (labels : List ℤ) (n_threads : ℤ) (hw : ℕ) (workerOf : ℕ → ℕ) (tis : List ℕ) :
    (features.shape0 ≠ labels.length →
      (rf.predict acc features labels n_threads hw workerOf tis).2 =
        .error "RandomForest::predict(): Shape mismatch between features and labels.") ∧
    (features.shape0 = labels.length →
      features.shape1 ≠ rf.problem_spec_.num_features_ →
      (rf.predict acc features labels n_threads hw workerOf tis).2 =
        .error "RandomForest::predict(): Number of features in prediction differs from training.") ∧
    (features.shape0 ≠ probs.shape0 →
      (rf.predict_proba acc features probs n_threads hw workerOf tis).2 =
        .error "RandomForest::predict_proba(): Shape mismatch between features and probabilities.") ∧
    (features.shape0 = probs.shape0 →
      features.shape1 ≠ rf.problem_spec_.num_features_ →
      (rf.predict_proba acc features probs n_threads hw workerOf tis).2 =
        .error "RandomForest::predict_proba(): Number of features in prediction differs from training.") ∧
    (features.shape0 = probs.shape0 →
      features.shape1 = rf.problem_spec_.num_features_ →
      probs.shape1 ≠ rf.problem_spec_.num_classes_ →
      (rf.predict_proba acc features probs n_threads hw workerOf tis).2 =
        .error "RandomForest::predict_proba(): Number of labels in probabilities differs from training.") ∧
    (features.shape0 = probs.shape0 →
      features.shape1 = rf.problem_spec_.num_features_ →
      probs.shape1 = rf.problem_spec_.num_classes_ →
      ¬ (∀ i ∈ toSortedSet tis, i < rf.graph_.numRoots) →
      (rf.predict_proba acc features probs n_threads hw workerOf tis).2 =
        .error "RandomForest::predict_proba(): Tree index out of range.") ∧
    (features.shape0 ≠ ids.shape0 →
      (rf.leaf_ids features ids n_threads hw workerOf tis).2 =
        .error "RandomForest::leaf_ids(): Shape mismatch between features and probabilities.") ∧
    (features.shape0 = ids.shape0 →
      features.shape1 ≠ rf.problem_spec_.num_features_ →
      (rf.leaf_ids features ids n_threads hw workerOf tis).2 =
        .error "RandomForest::leaf_ids(): Number of features in prediction differs from training.") ∧
    (features.shape0 = ids.shape0 →
      features.shape1 = rf.problem_spec_.num_features_ →
      ids.shape1 ≠ rf.graph_.numRoots →
      (rf.leaf_ids features ids n_threads hw workerOf tis).2 =
        .error "RandomForest::leaf_ids(): Leaf array has wrong shape.") ∧
    (features.shape0 = ids.shape0 →
      features.shape1 = rf.problem_spec_.num_features_ →
      ids.shape1 = rf.graph_.numRoots →
      ¬ (∀ i ∈ toSortedSet tis, i < rf.graph_.numRoots) →
      (rf.leaf_ids features ids n_threads hw workerOf tis).2 =
        .error "RandomForest::leaf_ids(): Tree index out of range.") ∧
    (rf.problem_spec_ ≠ other.problem_spec_ →
      (rf.merge other).2 =
        .error "RandomForest::merge(): You cannot merge with different problem specs.") ∧
    allCheckMsgs.Nodup := by
  refine ⟨?_, ?_, ?_, ?_, ?_, ?_, ?_, ?_, ?_, ?_, ?_, by decide⟩
  · intro c0
    rw [RandomForest.predict, if_pos c0]
  · intro c0 c1
    rw [RandomForest.predict, if_neg (not_not_intro c0), if_pos c1]
  · intro c0
    rw [RandomForest.predict_proba, if_pos c0]
  · intro c0 c1
    rw [RandomForest.predict_proba, if_neg (not_not_intro c0), if_pos c1]
  · intro c0 c1 c2
    rw [RandomForest.predict_proba, if_neg (not_not_intro c0),
      if_neg (not_not_intro c1), if_pos c2]
  · intro c0 c1 c2 c3
    rw [RandomForest.predict_proba, if_neg (not_not_intro c0),
      if_neg (not_not_intro c1), if_neg (not_not_intro c2), if_pos c3]
  · intro c0
    rw [RandomForest.leaf_ids, if_pos c0]
  · intro c0 c1
    rw [RandomForest.leaf_ids, if_neg (not_not_intro c0), if_pos c1]
  · intro c0 c1 c2
    rw [RandomForest.leaf_ids, if_neg (not_not_intro c0),
      if_neg (not_not_intro c1), if_pos c2]
  · intro c0 c1 c2 c3
    rw [RandomForest.leaf_ids, if_neg (not_not_intro c0),
      if_neg (not_not_intro c1), if_neg (not_not_intro c2), if_pos c3]
  · intro hc
    rw [RandomForest.merge, if_neg hc]

/-- C9 witness: a concrete mismatched predict call receives the fixed
shape-mismatch message. -/
theorem C9_amended_witness :
    (exRF.predict exAcc exFeat [0] 1 1 (fun _ => 0) []).2 =
      .error "RandomForest::predict(): Shape mismatch between features and labels." :=
  (C9_amended exRF exRF exAcc exFeat ⟨8, 1, fun _ _ => 5⟩ ⟨8, 4, fun _ _ => 0⟩
    [0] 1 1 (fun _ => 0) []).1 (by decide)

/-! The structural facts about forest merging. -/

theorem merge_numNodes (a b : BinaryForest) :
    (a.merge b).numNodes = a.numNodes + b.numNodes := by
  simp [BinaryForest.merge, BinaryForest.numNodes]

theorem merge_numRoots (a b : BinaryForest) :
    (a.merge b).numRoots = a.numRoots + b.numRoots := by
  simp [BinaryForest.merge, BinaryForest.numRoots]

theorem merge_getRoot_left (a b : BinaryForest) (k : ℕ) (hk : k < a.numRoots) :
    (a.merge b).getRoot k = a.getRoot k := by
  rw [BinaryForest.getRoot, BinaryForest.getRoot, BinaryForest.merge]
  exact List.getD_append _ _ _ _ hk

theorem merge_getRoot_right (a b : BinaryForest) (k : ℕ) (hk : k < b.numRoots) :
    (a.merge b).getRoot (k + a.numRoots) = b.getRoot k + a.numNodes := by
  rw [BinaryForest.getRoot, BinaryForest.getRoot, BinaryForest.merge]
  dsimp only
  rw [Nat.add_comm k a.numRoots, show a.numRoots = a.roots.length from rfl,
    List.getD_eq_getElem?_getD, List.getElem?_append_right (Nat.le_add_right _ _),
    Nat.add_sub_cancel_left, List.getElem?_map, List.getElem?_eq_getElem hk,
    List.getD_eq_getElem b.roots 0 hk]
  rfl

theorem merge_childrenOf_left (a b : BinaryForest) (n : ℕ) (hn : n < a.numNodes) :
    (a.merge b).childrenOf n = a.childrenOf n := by
  rw [BinaryForest.childrenOf, BinaryForest.childrenOf, BinaryForest.merge]
  exact List.getD_append _ _ _ _ hn

theorem merge_childrenOf_right (a b : BinaryForest) (n : ℕ) :
    (a.merge b).childrenOf (n + a.numNodes) =
      (b.childrenOf n).map (fun p => (p.1 + a.numNodes, p.2 + a.numNodes)) := by
  rw [BinaryForest.childrenOf, BinaryForest.childrenOf, BinaryForest.merge]
  dsimp only
  rw [Nat.add_comm n a.numNodes, show a.numNodes = a.children.length from rfl,
    List.getD_eq_getElem?_getD, List.getElem?_append_right (Nat.le_add_right _ _),
    Nat.add_sub_cancel_left]
  by_cases hn : n < b.children.length
  · rw [List.getElem?_map, List.getElem?_eq_getElem hn,
      List.getD_eq_getElem?_getD, List.getElem?_eq_getElem hn]
    rfl
  · rw [List.getElem?_eq_none (by simpa using hn), List.getD_eq_getElem?_getD,
      List.getElem?_eq_none (by simpa using hn)]
    rfl

theorem merge_eq {F A : Type} (rf other : RandomForest F A)
    (hspec : rf.problem_spec_ = other.problem_spec_) :
    rf.merge other = (mergedRF rf other, .ok ()) := by
  rw [RandomForest.merge, if_pos hspec]
  rfl

theorem WFForest_merge {F A : Type} (rf other : RandomForest F A)
    (hwf1 : rf.WFForest) (hwf2 : other.WFForest)
    (hbs : rf.split_tests_.keysBound rf.num_nodes)
    (hbr : rf.node_responses_.keysBound rf.num_nodes)
    (hns : other.split_tests_.keysNodup)
    (hnr : other.node_responses_.keysNodup) :
    (mergedRF rf other).WFForest := by
  simp only [RandomForest.num_nodes] at hbs hbr
  have hsplit : ∀ n, (mergedRF rf other).graph_.childrenOf n =
      (rf.graph_.merge other.graph_).childrenOf n := fun n => rfl
  have htot : (rf.graph_.merge other.graph_).numNodes =
      rf.graph_.numNodes + other.graph_.numNodes := merge_numNodes _ _
  have hmtot : (mergedRF rf other).graph_.numNodes =
      rf.graph_.numNodes + other.graph_.numNodes := htot
  constructor
  · intro n l r hc
    rw [hsplit] at hc
    by_cases hn : n < rf.graph_.numNodes
    · rw [merge_childrenOf_left _ _ _ hn] at hc
      exact hwf1.mono n l r hc
    · obtain ⟨n2, rfl⟩ : ∃ n2, n = n2 + rf.graph_.numNodes :=
        ⟨n - rf.graph_.numNodes, by omega⟩
      rw [merge_childrenOf_right] at hc
      cases hc2 : other.graph_.childrenOf n2 with
      | none =>
        rw [hc2] at hc
        cases hc
      | some lr =>
        rw [hc2] at hc
        obtain ⟨hl, hr⟩ : lr.1 + rf.graph_.numNodes = l ∧ lr.2 + rf.graph_.numNodes = r := by
          constructor <;> [exact congrArg Prod.fst (by injection hc);
            exact congrArg Prod.snd (by injection hc)]
        have := hwf2.mono n2 lr.1 lr.2 (by rw [hc2])
        omega
  · intro n l r hc
    rw [hsplit] at hc
    rw [hmtot]
    by_cases hn : n < rf.graph_.numNodes
    · rw [merge_childrenOf_left _ _ _ hn] at hc
      have := hwf1.childrenValid n l r hc
      omega
    · obtain ⟨n2, rfl⟩ : ∃ n2, n = n2 + rf.graph_.numNodes :=
        ⟨n - rf.graph_.numNodes, by omega⟩
      rw [merge_childrenOf_right] at hc
      cases hc2 : other.graph_.childrenOf n2 with
      | none =>
        rw [hc2] at hc
        cases hc
      | some lr =>
        rw [hc2] at hc
        obtain ⟨hl, hr⟩ : lr.1 + rf.graph_.numNodes = l ∧ lr.2 + rf.graph_.numNodes = r := by
          constructor <;> [exact congrArg Prod.fst (by injection hc);
            exact congrArg Prod.snd (by injection hc)]
        have := hwf2.childrenValid n2 lr.1 lr.2 (by rw [hc2])
        omega
  · intro root hr
    rw [hmtot]
    rcases List.mem_append.1 hr with hr | hr
    · have := hwf1.rootsValid root hr
      omega
    · rcases List.mem_map.1 hr with ⟨r2, hr2, rfl⟩
      have := hwf2.rootsValid r2 hr2
      have h9 : rf.num_nodes = rf.graph_.numNodes := rfl
      omega
  · intro n l r hc
    rw [hsplit] at hc
    by_cases hn : n < rf.graph_.numNodes
    · rw [merge_childrenOf_left _ _ _ hn] at hc
      show ((foldIns rf.split_tests_ other.split_tests_.entries rf.graph_.numNodes).get
        n).isSome
      rw [foldIns_get_low _ _ _ _ hn]
      exact hwf1.splitTotal n l r hc
    · obtain ⟨n2, rfl⟩ : ∃ n2, n = n2 + rf.graph_.numNodes :=
        ⟨n - rf.graph_.numNodes, by omega⟩
      rw [merge_childrenOf_right] at hc
      show ((foldIns rf.split_tests_ other.split_tests_.entries rf.graph_.numNodes).get
        (n2 + rf.graph_.numNodes)).isSome
      rw [foldIns_get_shifted rf.split_tests_ other.split_tests_ rf.graph_.numNodes n2
        hbs hns]
      cases hc2 : other.graph_.childrenOf n2 with
      | none =>
        rw [hc2] at hc
        cases hc
      | some lr =>
        exact hwf2.splitTotal n2 lr.1 lr.2 (by rw [hc2])
  · intro n hn hc
    rw [hsplit] at hc
    rw [hmtot] at hn
    by_cases hn2 : n < rf.graph_.numNodes
    · rw [merge_childrenOf_left _ _ _ hn2] at hc
      show ((foldIns rf.node_responses_ other.node_responses_.entries
        rf.graph_.numNodes).get n).isSome
      rw [foldIns_get_low _ _ _ _ hn2]
      exact hwf1.responsesAtLeaves n hn2 hc
    · obtain ⟨n2, rfl⟩ : ∃ n2, n = n2 + rf.graph_.numNodes :=
        ⟨n - rf.graph_.numNodes, by omega⟩
      rw [merge_childrenOf_right] at hc
      show ((foldIns rf.node_responses_ other.node_responses_.entries
        rf.graph_.numNodes).get (n2 + rf.graph_.numNodes)).isSome
      rw [foldIns_get_shifted rf.node_responses_ other.node_responses_
        rf.graph_.numNodes n2 hbr hnr]
      have hn3 : n2 < other.graph_.numNodes := by omega
      apply hwf2.responsesAtLeaves n2 hn3
      cases hc2 : other.graph_.childrenOf n2 with
      | none => rfl
      | some lr =>
        rw [hc2] at hc
        cases hc

/-- Walking the merged forest from a shifted node is the walk of the
second forest with the leaf shifted and the comparison count unchanged. -/
theorem walk_merge_shift {F A : Type} (rf other : RandomForest F A) (row : List F)
    (hbs : rf.split_tests_.keysBound rf.num_nodes)
    (hns : other.split_tests_.keysNodup) :
    ∀ fuel n, (mergedRF rf other).walkFromNode row fuel (n + rf.graph_.numNodes) =
      (other.walkFromNode row fuel n).map (fun p => (p.1 + rf.graph_.numNodes, p.2)) := by
  simp only [RandomForest.num_nodes] at hbs
  intro fuel
  induction fuel with
  | zero =>
    intro n
    rfl
  | succ fuel ih =>
    intro n
    have hch : (mergedRF rf other).graph_.childrenOf (n + rf.graph_.numNodes) =
        (other.graph_.childrenOf n).map
          (fun p => (p.1 + rf.graph_.numNodes, p.2 + rf.graph_.numNodes)) :=
      merge_childrenOf_right rf.graph_ other.graph_ n
    have hst : (mergedRF rf other).split_tests_.get (n + rf.graph_.numNodes) =
        other.split_tests_.get n :=
      foldIns_get_shifted rf.split_tests_ other.split_tests_ rf.graph_.numNodes n hbs hns
    cases hc : other.graph_.childrenOf n with
    | none =>
      rw [walkFromNode_leaf other row fuel n hc]
      rw [hc] at hch
      rw [walkFromNode_leaf _ row fuel _ hch]
      rfl
    | some lr =>
      obtain ⟨l, r⟩ := lr
      rw [hc] at hch
      cases hf : other.split_tests_.get n with
      | none =>
        rw [hf] at hst
        rw [RandomForest.walkFromNode, RandomForest.walkFromNode, hch, hc, hst, hf]
        rfl
      | some f =>
        rw [hf] at hst
        rw [Option.map_some'] at hch
        rw [walkFromNode_step other row fuel n hc hf,
          walkFromNode_step (mergedRF rf other) row fuel (n + rf.graph_.numNodes) hch hst]
        have hchild : (mergedRF rf other).graph_.getChild (n + rf.graph_.numNodes) (f row) =
            other.graph_.getChild n (f row) + rf.graph_.numNodes := by
          simp only [BinaryForest.getChild, hch, hc]
          by_cases h0 : f row = 0
          · rw [if_pos h0, if_pos h0]
          · rw [if_neg h0, if_neg h0]
        rw [hchild, ih (other.graph_.getChild n (f row))]
        cases other.walkFromNode row fuel (other.graph_.getChild n (f row)) with
        | none => rfl
        | some p => rfl

/-- The traversal of an appended tree of the merged forest: same
comparison count, leaf shifted by the first forest's node count. -/
theorem walkResult_merge {F A : Type} (rf other : RandomForest F A) (row : List F)
    (k : ℕ) (hwf2 : other.WFForest)
    (hbs : rf.split_tests_.keysBound rf.num_nodes)
    (hns : other.split_tests_.keysNodup)
    (hk : k < other.graph_.numRoots) :
    (mergedRF rf other).walkResult row (k + rf.graph_.numRoots) =
      some (other.leafOf row k + rf.graph_.numNodes, other.countOf row k) := by
  have hroot : (mergedRF rf other).graph_.getRoot (k + rf.graph_.numRoots) =
      other.graph_.getRoot k + rf.graph_.numNodes := by
    have := merge_getRoot_right rf.graph_ other.graph_ k hk
    simpa using this
  have hwalk2 := walkResult_isSome_wf other row k hwf2
  rw [RandomForest.walkResult] at hwalk2
  have hshift := walk_merge_shift rf other row hbs hns (other.graph_.numNodes + 1)
    (other.graph_.getRoot k)
  rw [hwalk2] at hshift
  have hmono := walkFromNode_mono (mergedRF rf other) row (other.graph_.numNodes + 1)
    ((mergedRF rf other).graph_.numNodes + 1)
    (other.graph_.getRoot k + rf.graph_.numNodes)
    (other.leafOf row k + rf.graph_.numNodes, other.countOf row k)
    (by
      have := merge_numNodes rf.graph_ other.graph_
      show other.graph_.numNodes + 1 ≤ (rf.graph_.merge other.graph_).numNodes + 1
      omega)
    hshift
  rw [RandomForest.walkResult, hroot]
  exact hmono

theorem leafOf_merge {F A : Type} (rf other : RandomForest F A) (row : List F)
    (k : ℕ) (hwf2 : other.WFForest)
    (hbs : rf.split_tests_.keysBound rf.num_nodes)
    (hns : other.split_tests_.keysNodup)
    (hk : k < other.graph_.numRoots) :
    (mergedRF rf other).leafOf row (k + rf.graph_.numRoots) =
      other.leafOf row k + rf.graph_.numNodes := by
  rw [RandomForest.leafOf, walkResult_merge rf other row k hwf2 hbs hns hk]
  rfl

theorem countOf_merge {F A : Type} (rf other : RandomForest F A) (row : List F)
    (k : ℕ) (hwf2 : other.WFForest)
    (hbs : rf.split_tests_.keysBound rf.num_nodes)
    (hns : other.split_tests_.keysNodup)
    (hk : k < other.graph_.numRoots) :
    (mergedRF rf other).countOf row (k + rf.graph_.numRoots) = other.countOf row k := by
  rw [RandomForest.countOf, walkResult_merge rf other row k hwf2 hbs hns hk]
  rfl

theorem respOf_merge {F A : Type} [Inhabited A] (rf other : RandomForest F A)
    (row : List F) (k : ℕ) (hwf2 : other.WFForest)
    (hbs : rf.split_tests_.keysBound rf.num_nodes)
    (hbr : rf.node_responses_.keysBound rf.num_nodes)
    (hns : other.split_tests_.keysNodup)
    (hnr : other.node_responses_.keysNodup)
    (hk : k < other.graph_.numRoots) :
    (mergedRF rf other).respOf row (k + rf.graph_.numRoots) = other.respOf row k := by
  simp only [RandomForest.num_nodes] at hbr
  rw [RandomForest.respOf, RandomForest.respOf,
    leafOf_merge rf other row k hwf2 hbs hns hk]
  rw [show ((mergedRF rf other).node_responses_ : PropertyMap A) =
    foldIns rf.node_responses_ other.node_responses_.entries rf.graph_.numNodes from rfl]
  rw [foldIns_get_shifted rf.node_responses_ other.node_responses_ rf.graph_.numNodes
    (other.leafOf row k) hbr hnr]

/-! Shifting a tree-index list commutes with the sorted-set resolution. -/

theorem sortedInsert_map_add (x c : ℕ) (l : List ℕ) :
    sortedInsert (x + c) (l.map (fun v => v + c)) = (sortedInsert x l).map (fun v => v + c) := by
  induction l with
  | nil => rfl
  | cons y ys ih =>
    rw [List.map_cons, sortedInsert, sortedInsert]
    by_cases h1 : x < y
    · rw [if_pos (by omega), if_pos h1]
      rfl
    · rw [if_neg (by omega)]
      by_cases h2 : x = y
      · rw [if_pos (by omega), if_neg h1, if_pos h2]
        rfl
      · rw [if_neg (by omega), if_neg h1, if_neg h2, List.map_cons, ih]

theorem toSortedSet_map_add (l : List ℕ) (c : ℕ) :
    toSortedSet (l.map (fun v => v + c)) = (toSortedSet l).map (fun v => v + c) := by
  induction l with
  | nil => rfl
  | cons x xs ih =>
    show sortedInsert (x + c) (toSortedSet (xs.map (fun v => v + c))) = _
    rw [ih]
    exact sortedInsert_map_add x c (toSortedSet xs)

theorem resolveIndices_map_add (S : List ℕ) (c nr1 nr2 : ℕ) (hne : S ≠ []) :
    resolveIndices (S.map (fun v => v + c)) nr1 =
      (resolveIndices S nr2).map (fun v => v + c) := by
  have h1 : toSortedSet S ≠ [] := by
    intro h
    exact hne ((toSortedSet_eq_nil S).1 h)
  have h2 : toSortedSet (S.map (fun v => v + c)) ≠ [] := by
    rw [toSortedSet_map_add]
    intro h
    exact h1 (List.map_eq_nil.1 h)
  rw [resolveIndices_eq_toSortedSet _ _ h2, resolveIndices_eq_toSortedSet _ _ h1,
    toSortedSet_map_add]

theorem treeResponses_merge {F A : Type} [Inhabited A] (rf other : RandomForest F A)
    (features : Mat F) (S : List ℕ) (i : ℕ)
    (hwf2 : other.WFForest)
    (hbs : rf.split_tests_.keysBound rf.num_nodes)
    (hbr : rf.node_responses_.keysBound rf.num_nodes)
    (hns : other.split_tests_.keysNodup)
    (hnr : other.node_responses_.keysNodup)
    (hSne : S ≠ []) (hS : ∀ j ∈ S, j < other.graph_.numRoots) :
    (mergedRF rf other).treeResponses features
        (S.map (fun k => k + rf.graph_.numRoots)) i =
      other.treeResponses features S i := by
  rw [RandomForest.treeResponses, RandomForest.treeResponses,
    resolveIndices_map_add S rf.graph_.numRoots (mergedRF rf other).graph_.numRoots
      other.graph_.numRoots hSne, List.map_map]
  apply List.map_congr_left
  intro k hk
  have hk2 : k < other.graph_.numRoots := by
    apply mem_resolveIndices S other.graph_.numRoots
    · intro j hj
      exact hS j ((mem_toSortedSet S j).1 hj)
    · exact hk
  exact respOf_merge rf other (features.row i) k hwf2 hbs hbr hns hnr hk2

theorem sampleCount_merge {F A : Type} (rf other : RandomForest F A)
    (features : Mat F) (S : List ℕ) (i : ℕ)
    (hwf2 : other.WFForest)
    (hbs : rf.split_tests_.keysBound rf.num_nodes)
    (hns : other.split_tests_.keysNodup)
    (hSne : S ≠ []) (hS : ∀ j ∈ S, j < other.graph_.numRoots) :
    sampleCount (mergedRF rf other) features
        (resolveIndices (S.map (fun k => k + rf.graph_.numRoots))
          (mergedRF rf other).graph_.numRoots) i =
      sampleCount other features (resolveIndices S other.graph_.numRoots) i := by
  rw [sampleCount, sampleCount,
    resolveIndices_map_add S rf.graph_.numRoots (mergedRF rf other).graph_.numRoots
      other.graph_.numRoots hSne, List.map_map]
  congr 1
  apply List.map_congr_left
  intro k hk
  have hk2 : k < other.graph_.numRoots := by
    apply mem_resolveIndices S other.graph_.numRoots
    · intro j hj
      exact hS j ((mem_toSortedSet S j).1 hj)
    · exact hk
  exact countOf_merge rf other (features.row i) k hwf2 hbs hns hk2

theorem merge_predict_eq {F A : Type} [Inhabited A] (rf other : RandomForest F A)
    (acc : List A → List ℚ) (features : Mat F) (labels : List ℤ)
    (n_threads : ℤ) (hw : ℕ) (workerOf : ℕ → ℕ) (S : List ℕ)
    (hspec : rf.problem_spec_ = other.problem_spec_)
    (hwf1 : rf.WFForest) (hwf2 : other.WFForest)
    (hbs : rf.split_tests_.keysBound rf.num_nodes)
    (hbr : rf.node_responses_.keysBound rf.num_nodes)
    (hns : other.split_tests_.keysNodup)
    (hnr : other.node_responses_.keysNodup)
    (hSne : S ≠ []) (hS : ∀ j ∈ S, j < other.graph_.numRoots)
    (h0 : features.shape0 = labels.length)
    (h1 : features.shape1 = other.problem_spec_.num_features_)
    (hworker : ∀ i, i < features.shape0 → workerOf i < resolveThreads hw n_threads)
    (hAccLen : ∀ rs, (acc rs).length = other.problem_spec_.num_classes_) :
    (mergedRF rf other).predict acc features labels n_threads hw workerOf
        (S.map (fun k => k + rf.graph_.numRoots)) =
      other.predict acc features labels n_threads hw workerOf S := by
  have hwfM := WFForest_merge rf other hwf1 hwf2 hbs hbr hns hnr
  have hspecM : (mergedRF rf other).problem_spec_ = other.problem_spec_ := hspec
  have h1M : features.shape1 = (mergedRF rf other).problem_spec_.num_features_ := by
    rw [hspecM]
    exact h1
  have hnumr : (mergedRF rf other).graph_.numRoots =
      rf.graph_.numRoots + other.graph_.numRoots := merge_numRoots _ _
  have htisM : ∀ j ∈ S.map (fun k => k + rf.graph_.numRoots),
      j < (mergedRF rf other).graph_.numRoots := by
    intro j hj
    rcases List.mem_map.1 hj with ⟨k, hk, rfl⟩
    have := hS k hk
    omega
  have hAccLenM : ∀ rs, (acc rs).length = (mergedRF rf other).problem_spec_.num_classes_ := by
    intro rs
    rw [hspecM]
    exact hAccLen rs
  rw [predict_char (mergedRF rf other) acc features labels n_threads hw workerOf
    (S.map (fun k => k + rf.graph_.numRoots)) hwfM h0 h1M htisM hworker hAccLenM]
  rw [predict_char other acc features labels n_threads hw workerOf S hwf2 h0 h1 hS
    hworker hAccLen]
  have hlabels : ∀ i ∈ List.range features.shape0,
      (mergedRF rf other).problem_spec_.distinct_classes_.getD
        (argmaxIdx (acc ((mergedRF rf other).treeResponses features
          (S.map (fun k => k + rf.graph_.numRoots)) i))) 0 =
      other.problem_spec_.distinct_classes_.getD
        (argmaxIdx (acc (other.treeResponses features S i))) 0 := by
    intro i _
    rw [treeResponses_merge rf other features S i hwf2 hbs hbr hns hnr hSne hS, hspecM]
  have hcounts : ∀ i ∈ List.range features.shape0,
      sampleCount (mergedRF rf other) features
        (resolveIndices (S.map (fun k => k + rf.graph_.numRoots))
          (mergedRF rf other).graph_.numRoots) i =
      sampleCount other features (resolveIndices S other.graph_.numRoots) i := by
    intro i _
    exact sampleCount_merge rf other features S i hwf2 hbs hns hSne hS
  rw [List.map_congr_left hlabels, List.map_congr_left hcounts]

/-- C5: merging forest B into forest A with equal problem specifications
succeeds, adds exactly B's node count, re-keys every split-test and
node-response entry of B by adding A's pre-merge node count, leaves A's
original maps, children and roots untouched at their old ids and tree
indices, appends B's trees after A's, and makes predictions against the
appended trees (at their shifted tree indices) equal to standalone
predictions against B on the same features. -/
theorem C5_merge {F A : Type} [Inhabited A] (rf other : RandomForest F A)
    (acc : List A → List ℚ) (features : Mat F) (labels : List ℤ)
    (n_threads : ℤ) (hw : ℕ) (workerOf : ℕ → ℕ) (S : List ℕ)
    (hspec : rf.problem_spec_ = other.problem_spec_)
    (hwf1 : rf.WFForest) (hwf2 : other.WFForest)
    (hbs : rf.split_tests_.keysBound rf.num_nodes)
    (hbr : rf.node_responses_.keysBound rf.num_nodes)
    (hns : other.split_tests_.keysNodup)
    (hnr : other.node_responses_.keysNodup)
    (hSne : S ≠ []) (hS : ∀ j ∈ S, j < other.num_trees)
    (h0 : features.shape0 = labels.length)
    (h1 : features.shape1 = other.problem_spec_.num_features_)
    (hworker : ∀ i, i < features.shape0 → workerOf i < resolveThreads hw n_threads)
    (hAccLen : ∀ rs, (acc rs).length = other.problem_spec_.num_classes_) :
    (rf.merge other).2 = .ok () ∧
    (rf.merge other).1.num_nodes = rf.num_nodes + other.num_nodes ∧
    (∀ n, (rf.merge other).1.split_tests_.get (n + rf.num_nodes) =
      other.split_tests_.get n) ∧
    (∀ n, (rf.merge other).1.node_responses_.get (n + rf.num_nodes) =
      other.node_responses_.get n) ∧
    (∀ n, n < rf.num_nodes →
      (rf.merge other).1.split_tests_.get n = rf.split_tests_.get n) ∧
    (∀ n, n < rf.num_nodes →
      (rf.merge other).1.node_responses_.get n = rf.node_responses_.get n) ∧
    (∀ n, n < rf.num_nodes →
      (rf.merge other).1.graph_.childrenOf n = rf.graph_.childrenOf n) ∧
    (rf.merge other).1.num_trees = rf.num_trees + other.num_trees ∧
    (∀ k, k < rf.num_trees →
      (rf.merge other).1.graph_.getRoot k = rf.graph_.getRoot k) ∧
    (rf.merge other).1.predict acc features labels n_threads hw workerOf
        (S.map (fun k => k + rf.num_trees)) =
      other.predict acc features labels n_threads hw workerOf S := by
  rw [merge_eq rf other hspec]
  dsimp only
  refine ⟨rfl, ?_, ?_, ?_, ?_, ?_, ?_, ?_, ?_, ?_⟩
  · exact merge_numNodes rf.graph_ other.graph_
  · intro n
    exact foldIns_get_shifted rf.split_tests_ other.split_tests_ rf.num_nodes n hbs hns
  · intro n
    exact foldIns_get_shifted rf.node_responses_ other.node_responses_ rf.num_nodes n
      hbr hnr
  · intro n hn
    exact foldIns_get_low rf.split_tests_ other.split_tests_ rf.num_nodes n hn
  · intro n hn
    exact foldIns_get_low rf.node_responses_ other.node_responses_ rf.num_nodes n hn
  · intro n hn
    exact merge_childrenOf_left rf.graph_ other.graph_ n hn
  · exact merge_numRoots rf.graph_ other.graph_
  · intro k hk
    exact merge_getRoot_left rf.graph_ other.graph_ k hk
  · exact merge_predict_eq rf other acc features labels n_threads hw workerOf S hspec
      hwf1 hwf2 hbs hbr hns hnr hSne hS h0 h1 hworker hAccLen

/-- C5 witness: the concrete forest merged into itself; the appended tree
(index 1) predicts the eight samples exactly as the standalone forest
does. -/
theorem C5_merge_witness :
    (exRF.merge exRF).2 = .ok () ∧
    (exRF.merge exRF).1.num_nodes = exRF.num_nodes + exRF.num_nodes ∧
    (∀ n, (exRF.merge exRF).1.split_tests_.get (n + exRF.num_nodes) =
      exRF.split_tests_.get n) ∧
    (∀ n, (exRF.merge exRF).1.node_responses_.get (n + exRF.num_nodes) =
      exRF.node_responses_.get n) ∧
    (∀ n, n < exRF.num_nodes →
      (exRF.merge exRF).1.split_tests_.get n = exRF.split_tests_.get n) ∧
    (∀ n, n < exRF.num_nodes →
      (exRF.merge exRF).1.node_responses_.get n = exRF.node_responses_.get n) ∧
    (∀ n, n < exRF.num_nodes →
      (exRF.merge exRF).1.graph_.childrenOf n = exRF.graph_.childrenOf n) ∧
    (exRF.merge exRF).1.num_trees = exRF.num_trees + exRF.num_trees ∧
    (∀ k, k < exRF.num_trees →
      (exRF.merge exRF).1.graph_.getRoot k = exRF.graph_.getRoot k) ∧
    (exRF.merge exRF).1.predict exAcc exFeat [9, 9, 9, 9, 9, 9, 9, 9] 2 0 (fun _ => 0)
        ([0].map (fun k => k + exRF.num_trees)) =
      exRF.predict exAcc exFeat [9, 9, 9, 9, 9, 9, 9, 9] 2 0 (fun _ => 0) [0] :=
  C5_merge exRF exRF exAcc exFeat [9, 9, 9, 9, 9, 9, 9, 9] 2 0 (fun _ => 0) [0]
    rfl (WFForest_of_wfB exRF (by decide)) (WFForest_of_wfB exRF (by decide))
    (by decide) (by decide) (by decide) (by decide) (by decide) (by decide)
    rfl rfl (by decide) (fun rs => rfl)

end VigraRF

